import Mathlib

/-!
Verification of the largest-rectangle-in-histogram scan from `src/main.rs`.

The Rust program exposes `compute_area_of_largest_rectangle`, a monotonic-stack
sweep over a histogram of `i32` bar heights.  We embed the program shallowly:

* the histogram (the `Histogram` capability backed by `ConcreteHistogram`'s
  `Vec<i32>`) is a `List Int`;
* the searcher state (`LargestRectangleSearcher`) is a structure holding the
  borrowed histogram and the `recorded_bars_of_increasing_height` stack;
  the source keeps the stack top at the *end* of the `Vec`, we keep the top at
  the *head* of the list (so `push` is `cons`, `last_element` is `head?`,
  `second_last_element` is the second entry);
* every `assert!` in the source is modelled by `Option`: a failing assertion
  (a Rust panic) is `none`;
* `i32` values are modelled as unbounded `Int`; the 32-bit wraparound question
  raised by the spec's numeric-semantics section is treated separately with an
  explicitly wrapped variant (`wrap32`).

A pure (assertion-free) mirror of the algorithm (`drainP`, `adjustP`, `stepP`,
`stateAt`, `runP`) carries the correctness proofs; it is connected to the
faithful `Option` layer by bridge lemmas showing that for histograms whose
scanned prefix is non-negative no assertion can fire.
-/

namespace LargestRect

/-- Bounds-extended height, the mathematical content of
`LargestRectangleSearcher::height_at` (src/main.rs lines 45-53): positions
`-1` and `width` are virtual bars of height `0`, in-range positions delegate
to the histogram (`ConcreteHistogram::height_at` is plain indexing). -/
def heightExt (bars : List Int) (x : Int) : Int :=
  if 0 ≤ x ∧ x < (bars.length : Int) then bars.getD x.toNat 0 else 0

theorem heightExt_neg_one (bars : List Int) : heightExt bars (-1) = 0 := by
  simp [heightExt]

theorem heightExt_of_le (bars : List Int) (x : Int)
    (h : (bars.length : Int) ≤ x) : heightExt bars x = 0 := by
  simp only [heightExt, ite_eq_right_iff]
  intro hc
  omega

theorem heightExt_of_neg (bars : List Int) (x : Int) (h : x < 0) :
    heightExt bars x = 0 := by
  simp only [heightExt, ite_eq_right_iff]
  intro hc
  omega

theorem heightExt_mem (bars : List Int) (x : Int)
    (h0 : 0 ≤ x) (h1 : x < (bars.length : Int)) :
    bars.getD x.toNat 0 ∈ bars := by
  have hlt : x.toNat < bars.length := by omega
  rw [List.getD_eq_getElem?_getD, List.getElem?_eq_getElem hlt]
  exact List.getElem_mem hlt

theorem heightExt_nonneg (bars : List Int) (hb : ∀ v ∈ bars, 0 ≤ v)
    (x : Int) : 0 ≤ heightExt bars x := by
  unfold heightExt
  by_cases h : 0 ≤ x ∧ x < (bars.length : Int)
  · rw [if_pos h]
    exact hb _ (heightExt_mem bars x h.1 h.2)
  · rw [if_neg h]

/-- Minimum bar height on positions `i, i+1, ..., i+len`
(the `min(height[i..=j])` of the spec's brute-force cross-check). -/
def minHeight (bars : List Int) (i : Nat) : Nat → Int
  | 0 => heightExt bars (i : Int)
  | len + 1 => min (heightExt bars (i : Int)) (minHeight bars (i + 1) len)

theorem minHeight_le (bars : List Int) :
    ∀ (len i k : Nat), i ≤ k → k ≤ i + len →
      minHeight bars i len ≤ heightExt bars (k : Int) := by
  intro len
  induction len with
  | zero =>
    intro i k h1 h2
    have : k = i := by omega
    subst this
    simp [minHeight]
  | succ n ih =>
    intro i k h1 h2
    by_cases hk : k = i
    · subst hk
      simp [minHeight]
    · have h1' : i + 1 ≤ k := by omega
      have h2' : k ≤ (i + 1) + n := by omega
      calc minHeight bars i (n + 1) ≤ minHeight bars (i + 1) n := by
            simp [minHeight]
        _ ≤ heightExt bars (k : Int) := ih (i + 1) k h1' h2'

theorem le_minHeight (bars : List Int) :
    ∀ (len i : Nat) (v : Int),
      (∀ k : Nat, i ≤ k → k ≤ i + len → v ≤ heightExt bars (k : Int)) →
      v ≤ minHeight bars i len := by
  intro len
  induction len with
  | zero =>
    intro i v h
    exact h i (le_refl i) (by omega)
  | succ n ih =>
    intro i v h
    simp only [minHeight, le_min_iff]
    constructor
    · exact h i (le_refl i) (by omega)
    · exact ih (i + 1) v (fun k h1 h2 => h k (by omega) (by omega))

/-- Fold-max over `0, 1, ..., m-1`, used to state the brute-force reference. -/
def foldMax (f : Nat → Int) (m : Nat) (a : Int) : Int :=
  (List.range m).foldl (fun acc k => max acc (f k)) a

theorem foldMax_succ (f : Nat → Int) (m : Nat) (a : Int) :
    foldMax f (m + 1) a = max (foldMax f m a) (f m) := by
  unfold foldMax
  rw [List.range_succ, List.foldl_append]
  rfl

theorem le_foldMax_init (f : Nat → Int) (m : Nat) (a : Int) :
    a ≤ foldMax f m a := by
  induction m with
  | zero => simp [foldMax]
  | succ n ih =>
    rw [foldMax_succ]
    exact le_trans ih (le_max_left _ _)

theorem le_foldMax (f : Nat → Int) (m : Nat) (a : Int) (k : Nat)
    (hk : k < m) : f k ≤ foldMax f m a := by
  induction m with
  | zero => omega
  | succ n ih =>
    rw [foldMax_succ]
    by_cases h : k = n
    · subst h
      exact le_max_right _ _
    · exact le_trans (ih (by omega)) (le_max_left _ _)

theorem foldMax_le (f : Nat → Int) (m : Nat) (a : Int) (b : Int)
    (ha : a ≤ b) (hf : ∀ k, k < m → f k ≤ b) : foldMax f m a ≤ b := by
  induction m with
  | zero => simpa [foldMax] using ha
  | succ n ih =>
    rw [foldMax_succ]
    exact max_le (ih (fun k hk => hf k (by omega))) (hf n (by omega))

theorem foldMax_attained (f : Nat → Int) (m : Nat) (a : Int) :
    foldMax f m a = a ∨ ∃ k, k < m ∧ foldMax f m a = f k := by
  induction m with
  | zero => left; simp [foldMax]
  | succ n ih =>
    rw [foldMax_succ]
    rcases le_or_lt (f n) (foldMax f n a) with h | h
    · rw [max_eq_left h]
      rcases ih with h' | ⟨k, hk, h'⟩
      · left; exact h'
      · right; exact ⟨k, by omega, h'⟩
    · rw [max_eq_right (le_of_lt h)]
      right
      exact ⟨n, by omega, rfl⟩

/-- Brute-force reference (spec §8, "Brute-force cross-check property"):
the maximum over all index pairs `(i, j)`, `0 ≤ i ≤ j < width`, of
`(j - i + 1) * min(height[i..=j])`, and `0` when the width is `0`.
A pair is encoded as a left index `i` and a length offset `len = j - i`. -/
def brute (bars : List Int) : Int :=
  foldMax (fun i =>
      foldMax (fun len => ((len : Int) + 1) * minHeight bars i len)
        (bars.length - i) 0)
    bars.length 0

theorem brute_nonneg (bars : List Int) : 0 ≤ brute bars :=
  le_foldMax_init _ _ _

theorem rect_le_brute (bars : List Int) (i j : Nat) (hij : i ≤ j)
    (hj : j < bars.length) :
    ((j : Int) - (i : Int) + 1) * minHeight bars i (j - i) ≤ brute bars := by
  have hi : i < bars.length := by omega
  have hlen : j - i < bars.length - i := by omega
  have h1 : ((j - i : Nat) : Int) + 1 = (j : Int) - (i : Int) + 1 := by omega
  have h2 := le_foldMax
      (fun len => ((len : Int) + 1) * minHeight bars i len)
      (bars.length - i) 0 (j - i) hlen
  simp only at h2
  rw [h1] at h2
  exact le_trans h2 (le_foldMax _ bars.length 0 i hi)

theorem brute_attained (bars : List Int) :
    brute bars = 0 ∨
      ∃ i len, i < bars.length ∧ len < bars.length - i ∧
        brute bars = ((len : Int) + 1) * minHeight bars i len := by
  rcases foldMax_attained
      (fun i => foldMax (fun len => ((len : Int) + 1) * minHeight bars i len)
        (bars.length - i) 0) bars.length 0 with h | ⟨i, hi, h⟩
  · left; exact h
  · rcases foldMax_attained
        (fun len => ((len : Int) + 1) * minHeight bars i len)
        (bars.length - i) 0 with h' | ⟨len, hlen, h'⟩
    · left; rw [brute, h, h']
    · right
      exact ⟨i, len, hi, hlen, by rw [brute, h, h']⟩

/-!
Pure (assertion-free) mirror of the scan.  `drainP` is the `while` loop of
`compute_area_of_largest_rectangle_impl` (src/main.rs lines 63-69), `adjustP`
is `adjust_recorded_bars_of_increasing_height` (lines 89-96), `stepP` is one
iteration of the `for` loop of `compute_area_of_largest_rectangle`
(lines 30-43).  The stack keeps the top at the head of the list.
-/

/-- The drain loop: pop while the last recorded bar is strictly higher than
the cursor bar, folding in the candidate area
`(x - second_last - 1) * height(last)` computed before each pop. -/
def drainP (bars : List Int) (x : Int) : List Int → Int → Int × List Int
  | p :: q :: rest, best =>
    if heightExt bars x < heightExt bars p then
      drainP bars x (q :: rest) (max best ((x - q - 1) * heightExt bars p))
    else (best, p :: q :: rest)
  | s, best => (best, s)

/-- Record the cursor position: push when strictly higher than the last
recorded bar, otherwise replace the last recorded position (the `[]` case is
unreachable behind the source's non-emptiness assertion). -/
def adjustP (bars : List Int) (x : Int) : List Int → List Int
  | p :: rest =>
    if heightExt bars p < heightExt bars x then x :: p :: rest else x :: rest
  | [] => [x]

/-- One iteration of the scan loop: record the cursor when its bar is
not lower than the last recorded bar, otherwise drain and then record. -/
def stepP (bars : List Int) (acc : Int × List Int) (x : Int) : Int × List Int :=
  match acc with
  | (best, s) =>
    match s with
    | p :: _ =>
      if heightExt bars p ≤ heightExt bars x then (best, adjustP bars x s)
      else
        let d := drainP bars x s 0
        (max best d.1, adjustP bars x d.2)
    | [] => acc

/-- Scan state (running maximum, recorded-bar stack) after processing
cursor positions `0, 1, ..., x-1`, starting from the sentinel stack `[-1]`. -/
def stateAt (bars : List Int) (x : Nat) : Int × List Int :=
  (List.range x).foldl (fun acc (k : Nat) => stepP bars acc (k : Int)) (0, [-1])

/-- Result of the pure scan: the running maximum after the flush step at
cursor `width`. -/
def runP (bars : List Int) : Int := (stateAt bars (bars.length + 1)).1

theorem stateAt_zero (bars : List Int) : stateAt bars 0 = (0, [-1]) := rfl

theorem stateAt_succ (bars : List Int) (x : Nat) :
    stateAt bars (x + 1) = stepP bars (stateAt bars x) (x : Int) := by
  unfold stateAt
  rw [List.range_succ, List.foldl_append]
  rfl

/-!
Faithful embedding of `mod square_search` (src/main.rs lines 8-124).
Each Rust `assert!` (and each panic source) becomes an `Option` guard:
`none` models a panic.
-/

/-- The searcher struct (src/main.rs lines 17-20): a borrowed histogram and
the stack of recorded bar positions (top at the head of the list here; the
source's `Vec` keeps it at the end). -/
structure Searcher where
  histogram : List Int
  recorded_bars_of_increasing_height : List Int
deriving DecidableEq, Repr

/-- `LargestRectangleSearcher::new` (lines 23-28): seed the stack with the
sentinel position `-1`. -/
def Searcher.new (bars : List Int) : Searcher :=
  ⟨bars, [-1]⟩

/-- `LargestRectangleSearcher::width` (lines 55-57). -/
def Searcher.width (s : Searcher) : Int := (s.histogram.length : Int)

/-- `last_element` (lines 109-112): asserts non-emptiness, then the top of
the stack (the head in our encoding). -/
def last_element (ints : List Int) : Option Int := ints.head?

/-- `second_last_element` (lines 114-117): asserts at least two elements. -/
def second_last_element (ints : List Int) : Option Int :=
  match ints with
  | _ :: q :: _ => some q
  | _ => none

/-- `replace_last_element` (lines 119-123): asserts non-emptiness, then pops
and pushes the new value. -/
def replace_last_element (ints : List Int) (new_last : Int) : Option (List Int) :=
  match ints with
  | _ :: t => some (new_last :: t)
  | [] => none

/-- `LargestRectangleSearcher::height_at` (lines 45-53): asserts
`-1 ≤ x ≤ width`, answers `0` at the virtual boundary positions and delegates
to the histogram otherwise (in-range, so `getD`'s default is never taken). -/
def Searcher.height_at (s : Searcher) (x : Int) : Option Int :=
  if -1 ≤ x ∧ x ≤ s.width then
    some (if 0 ≤ x ∧ x < s.width then s.histogram.getD x.toNat 0 else 0)
  else none

/-- `height_of_last_recorded_bar` (lines 74-76). -/
def Searcher.height_of_last_recorded_bar (s : Searcher) : Option Int := do
  let p ← last_element s.recorded_bars_of_increasing_height
  s.height_at p

/-- `new_bar_is_higher` (lines 98-101): asserts the stack is non-empty. -/
def Searcher.new_bar_is_higher (s : Searcher) (x : Int) : Option Bool :=
  if s.recorded_bars_of_increasing_height.isEmpty then none
  else do
    let hx ← s.height_at x
    let hl ← s.height_of_last_recorded_bar
    pure (decide (hl < hx))

/-- `new_bar_is_same_size` (lines 103-106): asserts the stack is non-empty. -/
def Searcher.new_bar_is_same_size (s : Searcher) (x : Int) : Option Bool :=
  if s.recorded_bars_of_increasing_height.isEmpty then none
  else do
    let hx ← s.height_at x
    let hl ← s.height_of_last_recorded_bar
    pure (decide (hl = hx))

/-- `new_bar_is_not_lower` (lines 85-87). -/
def Searcher.new_bar_is_not_lower (s : Searcher) (x : Int) : Option Bool := do
  let hi ← s.new_bar_is_higher x
  let same ← s.new_bar_is_same_size x
  pure (hi || same)

/-- `adjust_recorded_bars_of_increasing_height` (lines 89-96): asserts the
new bar is not lower, then pushes (strictly higher) or replaces the top
(equal heights). -/
def Searcher.adjust_recorded_bars_of_increasing_height (s : Searcher)
    (x : Int) : Option Searcher := do
  let nl ← s.new_bar_is_not_lower x
  if nl then do
    let hi ← s.new_bar_is_higher x
    if hi then
      pure ⟨s.histogram, x :: s.recorded_bars_of_increasing_height⟩
    else do
      let st ← replace_last_element s.recorded_bars_of_increasing_height x
      pure ⟨s.histogram, st⟩
  else none

/-- `compute_area_of_rectangle_at_last_recorded_bar` (lines 78-83): asserts
at least two stack elements, then `width * height` with
`width = x - second_last - 1` and `height = height(last)`. -/
def Searcher.compute_area_of_rectangle_at_last_recorded_bar (s : Searcher)
    (x : Int) : Option Int :=
  match s.recorded_bars_of_increasing_height with
  | p :: q :: _ => do
    let h ← s.height_at p
    pure ((x - q - 1) * h)
  | _ => none

/-- The `while` loop of `compute_area_of_largest_rectangle_impl`
(lines 63-69), written as structural recursion on the stack: while the last
recorded bar is strictly higher than the cursor bar, accumulate the candidate
area and pop.  `height_of_last_recorded_bar` on an empty stack is an
assertion failure, hence the `[]` case is `none`. -/
def drain_go (bars : List Int) (x : Int) : List Int → Int → Option (Int × List Int)
  | [], _ => none
  | p :: rest, best => do
    let hl ← Searcher.height_at ⟨bars, p :: rest⟩ p
    let hx ← Searcher.height_at ⟨bars, p :: rest⟩ x
    if hx < hl then do
      let a ← Searcher.compute_area_of_rectangle_at_last_recorded_bar
        ⟨bars, p :: rest⟩ x
      drain_go bars x rest (max best a)
    else some (best, p :: rest)

/-- `compute_area_of_largest_rectangle_impl` (lines 59-72): asserts the
stack is non-empty, reads the cursor height, drains, then records the cursor
position. -/
def Searcher.compute_area_of_largest_rectangle_impl (s : Searcher)
    (x : Int) : Option (Int × Searcher) :=
  if s.recorded_bars_of_increasing_height.isEmpty then none
  else do
    let _current ← s.height_at x
    let (a, st) ← drain_go s.histogram x s.recorded_bars_of_increasing_height 0
    let s' ← Searcher.adjust_recorded_bars_of_increasing_height
      ⟨s.histogram, st⟩ x
    pure (a, s')

/-- One iteration of the `for` loop of `compute_area_of_largest_rectangle`
(lines 30-43). -/
def Searcher.step (acc : Int × Searcher) (x : Int) : Option (Int × Searcher) := do
  let nl ← acc.2.new_bar_is_not_lower x
  if nl then do
    let s' ← acc.2.adjust_recorded_bars_of_increasing_height x
    pure (acc.1, s')
  else do
    let r ← acc.2.compute_area_of_largest_rectangle_impl x
    pure (max acc.1 r.1, r.2)

/-- The `for x_pos in 0..self.width() + 1` loop (lines 30-43), over an
explicit cursor list. -/
def Searcher.scan (acc : Int × Searcher) : List Nat → Option (Int × Searcher)
  | [] => some acc
  | k :: ks => do
    let acc' ← Searcher.step acc (k : Int)
    Searcher.scan acc' ks

/-- `LargestRectangleSearcher::compute_area_of_largest_rectangle`
(lines 30-43): scan cursors `0, ..., width` and return the running maximum. -/
def Searcher.compute_area_of_largest_rectangle (s : Searcher) : Option Int := do
  let r ← Searcher.scan (0, s) (List.range (s.histogram.length + 1))
  pure r.1

/-- The public entry point `square_search::compute_area_of_largest_rectangle`
(src/main.rs lines 12-15). -/
def compute_area_of_largest_rectangle (bars : List Int) : Option Int :=
  (Searcher.new bars).compute_area_of_largest_rectangle

example : runP [2, 1, 5, 6, 2, 3] = 10 := by decide

example : compute_area_of_largest_rectangle [2, 1, 5, 6, 2, 3] = some 10 := by
  decide

example : brute [2, 1, 5, 6, 2, 3] = 10 := by decide

example : compute_area_of_largest_rectangle [] = some 0 := by decide

example : compute_area_of_largest_rectangle [-1] = none := by decide

/-!
The monotonic-stack invariant.  `spanRel bars p q` says: every bar strictly
between the adjacent recorded positions `q` (below) and `p` (above), and `p`
itself, is at least as high as the bar at `p`.
-/

/-- Adjacent-pair property of the recorded stack: all positions in `(q, p]`
have height at least the height at `p`. -/
def spanRel (bars : List Int) (p q : Int) : Prop :=
  ∀ k : Int, q < k → k ≤ p → heightExt bars p ≤ heightExt bars k

/-- Stack invariant holding before the cursor step at `x` (so the stack
records positions of `[-1, x)` and its top is `x - 1`).  The list is
top-first. -/
structure Inv (bars : List Int) (x : Int) (s : List Int) : Prop where
  ne : s ≠ []
  headEq : s.head? = some (x - 1)
  sorted : s.Pairwise (fun a b => b < a)
  mem_lb : ∀ p ∈ s, -1 ≤ p
  mem_ub : ∀ p ∈ s, p < x
  hsorted : s.Pairwise (fun a b => heightExt bars b < heightExt bars a)
  bottom : ∃ b, s.getLast? = some b ∧ heightExt bars b = 0
  span : s.Chain' (spanRel bars)

/-- Invariant fragment that survives draining (everything except the
identity of the top element). -/
structure PreInv (bars : List Int) (x : Int) (s : List Int) : Prop where
  ne : s ≠ []
  sorted : s.Pairwise (fun a b => b < a)
  mem_lb : ∀ p ∈ s, -1 ≤ p
  mem_ub : ∀ p ∈ s, p < x
  hsorted : s.Pairwise (fun a b => heightExt bars b < heightExt bars a)
  bottom : ∃ b, s.getLast? = some b ∧ heightExt bars b = 0
  span : s.Chain' (spanRel bars)

theorem Inv.toPre {bars : List Int} {x : Int} {s : List Int}
    (h : Inv bars x s) : PreInv bars x s :=
  ⟨h.ne, h.sorted, h.mem_lb, h.mem_ub, h.hsorted, h.bottom, h.span⟩

theorem chain'_suffix {α : Type} {R : α → α → Prop} :
    ∀ (u v : List α), List.Chain' R (u ++ v) → List.Chain' R v := by
  intro u
  induction u with
  | nil => intro v h; exact h
  | cons a u ih =>
    intro v h
    exact ih v (List.Chain'.tail h)

theorem getLast?_append_right {α : Type} :
    ∀ (u v : List α), v ≠ [] → (u ++ v).getLast? = v.getLast? := by
  intro u
  induction u with
  | nil => intro v _; rfl
  | cons a u ih =>
    intro v hv
    have huv : u ++ v ≠ [] := by
      intro h
      exact hv (List.append_eq_nil.1 h).2
    cases h : u ++ v with
    | nil => exact absurd h huv
    | cons b l =>
      rw [List.cons_append, h, List.getLast?_cons_cons, ← h, ih v hv]

/-- Climbing the stack from position `p` to the top `t`: if all strictly
higher entries (the list `u` above `p`) have height above `c`, then every
histogram position in `(p, t]` has height above `c`. -/
theorem chain_above (bars : List Int) (c : Int) :
    ∀ (u s' : List Int) (t p : Int),
      List.Chain' (spanRel bars) (u ++ s') →
      (u ++ s').head? = some t →
      s'.head? = some p →
      (∀ a ∈ u, c < heightExt bars a) →
      ∀ k : Int, p < k → k ≤ t → c < heightExt bars k := by
  intro u
  induction u with
  | nil =>
    intro s' t p _ h1 h2 _ k hk1 hk2
    rw [List.nil_append] at h1
    rw [h1] at h2
    injection h2 with h2
    omega
  | cons a u ih =>
    intro s' t p hchain h1 h2 hu k hk1 hk2
    rw [List.cons_append, List.head?_cons] at h1
    injection h1 with h1
    subst h1
    have hne : u ++ s' ≠ [] := by
      intro h
      have := (List.append_eq_nil.1 h).2
      rw [this] at h2
      exact Option.noConfusion h2
    obtain ⟨t', ht'⟩ := Option.ne_none_iff_exists'.1
      (fun h => hne (List.head?_eq_none_iff.1 h))
    rw [List.cons_append] at hchain
    have hrel : spanRel bars a t' := by
      have := (List.chain'_cons'.1 hchain).1
      exact this t' ht'
    have hchain' : List.Chain' (spanRel bars) (u ++ s') :=
      (List.chain'_cons'.1 hchain).2
    by_cases hkt : k ≤ t'
    · exact ih s' t' p hchain' ht' h2 (fun b hb => hu b (List.mem_cons_of_mem a hb))
        k hk1 hkt
    · have hak : c < heightExt bars a := hu a (List.mem_cons_self a u)
      exact lt_of_lt_of_le hak (hrel k (by omega) hk2)

/-!
Behaviour of the pure drain loop.
-/

theorem drainP_ne_nil (bars : List Int) (x : Int) :
    ∀ (s : List Int) (best : Int), s ≠ [] → (drainP bars x s best).2 ≠ [] := by
  intro s
  induction s with
  | nil => intro best h; exact absurd rfl h
  | cons p rest ih =>
    intro best _
    cases rest with
    | nil => simp [drainP]
    | cons q rest' =>
      rw [drainP]
      by_cases hc : heightExt bars x < heightExt bars p
      · rw [if_pos hc]
        exact ih _ (by simp)
      · rw [if_neg hc]
        simp

theorem drainP_decomp (bars : List Int) (x : Int) :
    ∀ (s : List Int) (best : Int),
      ∃ u, s = u ++ (drainP bars x s best).2 ∧
        ∀ a ∈ u, heightExt bars x < heightExt bars a := by
  intro s
  induction s with
  | nil => intro best; exact ⟨[], rfl, by simp⟩
  | cons p rest ih =>
    intro best
    cases rest with
    | nil => exact ⟨[], rfl, by simp⟩
    | cons q rest' =>
      rw [drainP]
      by_cases hc : heightExt bars x < heightExt bars p
      · rw [if_pos hc]
        obtain ⟨u, hu, hall⟩ := ih (max best ((x - q - 1) * heightExt bars p))
        refine ⟨p :: u, ?_, ?_⟩
        · rw [List.cons_append, ← hu]
        · intro a ha
          rcases List.mem_cons.1 ha with h | h
          · subst h; exact hc
          · exact hall a h
      · rw [if_neg hc]
        exact ⟨[], rfl, by simp⟩

theorem drainP_best_le (bars : List Int) (x : Int) :
    ∀ (s : List Int) (best : Int), best ≤ (drainP bars x s best).1 := by
  intro s
  induction s with
  | nil => intro best; simp [drainP]
  | cons p rest ih =>
    intro best
    cases rest with
    | nil => simp [drainP]
    | cons q rest' =>
      rw [drainP]
      by_cases hc : heightExt bars x < heightExt bars p
      · rw [if_pos hc]
        exact le_trans (le_max_left _ _) (ih _)
      · rw [if_neg hc]

theorem drainP_head_le (bars : List Int) (x : Int)
    (hx : 0 ≤ heightExt bars x) :
    ∀ (s : List Int) (best : Int) (b : Int),
      s.getLast? = some b → heightExt bars b = 0 →
      ∃ p t, (drainP bars x s best).2 = p :: t ∧
        heightExt bars p ≤ heightExt bars x := by
  intro s
  induction s with
  | nil => intro best b h _; exact Option.noConfusion h
  | cons p rest ih =>
    intro best b hlast hb
    cases rest with
    | nil =>
      rw [List.getLast?_singleton] at hlast
      injection hlast with hlast
      subst hlast
      exact ⟨p, [], by simp [drainP], by rw [hb]; exact hx⟩
    | cons q rest' =>
      rw [drainP]
      by_cases hc : heightExt bars x < heightExt bars p
      · rw [if_pos hc]
        rw [List.getLast?_cons_cons] at hlast
        exact ih _ b hlast hb
      · rw [if_neg hc]
        exact ⟨p, q :: rest', rfl, le_of_not_lt hc⟩

theorem drainP_preinv (bars : List Int) (x : Int) (s : List Int) (best : Int)
    (pre : PreInv bars x s) : PreInv bars x (drainP bars x s best).2 := by
  obtain ⟨u, hu, _⟩ := drainP_decomp bars x s best
  have hne : (drainP bars x s best).2 ≠ [] := drainP_ne_nil bars x s best pre.ne
  have hsub : List.Sublist (drainP bars x s best).2 s := by
    nth_rewrite 2 [hu]
    exact List.sublist_append_right u _
  refine ⟨hne, pre.sorted.sublist hsub, ?_, ?_, pre.hsorted.sublist hsub, ?_, ?_⟩
  · intro p hp
    exact pre.mem_lb p (hsub.mem hp)
  · intro p hp
    exact pre.mem_ub p (hsub.mem hp)
  · obtain ⟨b, hb1, hb2⟩ := pre.bottom
    refine ⟨b, ?_, hb2⟩
    rw [hu, getLast?_append_right u _ hne] at hb1
    exact hb1
  · have := pre.span
    rw [hu] at this
    exact chain'_suffix u _ this

/-!
Maintenance of the invariant across one cursor step.
-/

theorem adjustP_inv (bars : List Int) (x : Int) (s' : List Int) (p' : Int)
    (t' : List Int) (hs : s' = p' :: t')
    (pre : PreInv bars x s')
    (hle : heightExt bars p' ≤ heightExt bars x)
    (habove : ∀ k : Int, p' < k → k < x → heightExt bars x < heightExt bars k)
    (hx0 : 0 ≤ x) :
    Inv bars (x + 1) (adjustP bars x s') := by
  subst hs
  have hmem_t : ∀ a ∈ t', heightExt bars a < heightExt bars p' :=
    (List.pairwise_cons.1 pre.hsorted).1
  have hsorted_t : t'.Pairwise (fun a b => heightExt bars b < heightExt bars a) :=
    (List.pairwise_cons.1 pre.hsorted).2
  have hpos_t : ∀ a ∈ t', a < p' := (List.pairwise_cons.1 pre.sorted).1
  have hsorted_pos_t : t'.Pairwise (fun a b => b < a) :=
    (List.pairwise_cons.1 pre.sorted).2
  rw [adjustP]
  by_cases hc : heightExt bars p' < heightExt bars x
  · rw [if_pos hc]
    refine ⟨by simp, by simp, ?_, ?_, ?_, ?_, ?_, ?_⟩
    · rw [List.pairwise_cons]
      exact ⟨fun a ha => pre.mem_ub a ha, pre.sorted⟩
    · intro p hp
      rcases List.mem_cons.1 hp with h | h
      · omega
      · exact pre.mem_lb p h
    · intro p hp
      rcases List.mem_cons.1 hp with h | h
      · omega
      · have := pre.mem_ub p h
        omega
    · rw [List.pairwise_cons]
      refine ⟨?_, pre.hsorted⟩
      intro a ha
      rcases List.mem_cons.1 ha with h | h
      · subst h; exact hc
      · exact lt_trans (hmem_t a h) hc
    · obtain ⟨b, hb1, hb2⟩ := pre.bottom
      refine ⟨b, ?_, hb2⟩
      rw [List.getLast?_cons_cons]
      exact hb1
    · rw [List.chain'_cons']
      refine ⟨?_, pre.span⟩
      intro y hy
      rw [List.head?_cons] at hy
      injection hy with hy
      subst hy
      intro k hk1 hk2
      rcases lt_or_eq_of_le hk2 with h | h
      · exact le_of_lt (habove k hk1 h)
      · subst h; exact le_refl _
  · rw [if_neg hc]
    have heq : heightExt bars p' = heightExt bars x := le_antisymm hle (le_of_not_lt hc)
    refine ⟨by simp, by simp, ?_, ?_, ?_, ?_, ?_, ?_⟩
    · rw [List.pairwise_cons]
      refine ⟨?_, hsorted_pos_t⟩
      intro a ha
      have := pre.mem_ub a (List.mem_cons_of_mem p' ha)
      omega
    · intro p hp
      rcases List.mem_cons.1 hp with h | h
      · omega
      · exact pre.mem_lb p (List.mem_cons_of_mem p' h)
    · intro p hp
      rcases List.mem_cons.1 hp with h | h
      · omega
      · have := pre.mem_ub p (List.mem_cons_of_mem p' h)
        omega
    · rw [List.pairwise_cons]
      refine ⟨?_, hsorted_t⟩
      intro a ha
      rw [← heq]
      exact hmem_t a ha
    · cases t' with
      | nil =>
        obtain ⟨b, hb1, hb2⟩ := pre.bottom
        rw [List.getLast?_singleton] at hb1
        injection hb1 with hb1
        subst hb1
        refine ⟨x, by rw [List.getLast?_singleton], ?_⟩
        rw [← heq, hb2]
      | cons c l =>
        obtain ⟨b, hb1, hb2⟩ := pre.bottom
        rw [List.getLast?_cons_cons] at hb1
        refine ⟨b, ?_, hb2⟩
        rw [List.getLast?_cons_cons]
        exact hb1
    · cases t' with
      | nil => simp
      | cons c l =>
        rw [List.chain'_cons']
        refine ⟨?_, (List.chain'_cons'.1 pre.span).2⟩
        intro y hy
        rw [List.head?_cons] at hy
        injection hy with hy
        subst hy
        intro k hk1 hk2
        have hspan : spanRel bars p' c := by
          have := (List.chain'_cons'.1 pre.span).1
          exact this c rfl
        rcases le_or_lt k p' with h | h
        · rw [← heq]
          exact hspan k hk1 h
        · rcases lt_or_eq_of_le hk2 with h2 | h2
          · exact le_of_lt (habove k h h2)
          · subst h2; exact le_refl _

theorem stepP_inv (bars : List Int) (x : Int) (best : Int) (s : List Int)
    (inv : Inv bars x s) (hx0 : 0 ≤ x) (hxh : 0 ≤ heightExt bars x) :
    Inv bars (x + 1) (stepP bars (best, s) x).2 ∧
      (0 ≤ best → 0 ≤ (stepP bars (best, s) x).1) := by
  obtain ⟨p, t, rfl⟩ : ∃ p t, s = p :: t := by
    cases s with
    | nil => exact absurd rfl inv.ne
    | cons p t => exact ⟨p, t, rfl⟩
  have hp : p = x - 1 := by
    have := inv.headEq
    rw [List.head?_cons] at this
    injection this with h
  by_cases hc : heightExt bars p ≤ heightExt bars x
  · have hstep : stepP bars (best, p :: t) x = (best, adjustP bars x (p :: t)) := by
      simp only [stepP, if_pos hc]
    rw [hstep]
    constructor
    · refine adjustP_inv bars x (p :: t) p t rfl inv.toPre hc ?_ hx0
      intro k hk1 hk2
      omega
    · intro h; exact h
  · have hstep : stepP bars (best, p :: t) x =
        (max best (drainP bars x (p :: t) 0).1,
          adjustP bars x (drainP bars x (p :: t) 0).2) := by
      simp only [stepP, if_neg hc]
    rw [hstep]
    have hpre : PreInv bars x (drainP bars x (p :: t) 0).2 :=
      drainP_preinv bars x (p :: t) 0 inv.toPre
    obtain ⟨b, hb1, hb2⟩ := inv.bottom
    obtain ⟨p₂, t₂, hd2, hple⟩ := drainP_head_le bars x hxh (p :: t) 0 b hb1 hb2
    obtain ⟨u, hu, hall⟩ := drainP_decomp bars x (p :: t) 0
    have habove : ∀ k : Int, p₂ < k → k < x →
        heightExt bars x < heightExt bars k := by
      intro k hk1 hk2
      refine chain_above bars (heightExt bars x) u (drainP bars x (p :: t) 0).2
        (x - 1) p₂ ?_ ?_ ?_ hall k hk1 (by omega)
      · rw [← hu]; exact inv.span
      · rw [← hu]; exact inv.headEq
      · rw [hd2, List.head?_cons]
    constructor
    · exact adjustP_inv bars x (drainP bars x (p :: t) 0).2 p₂ t₂ hd2 hpre hple
        habove hx0
    · intro h
      exact le_trans h (le_max_left _ _)

/-- The stack invariant holds before every cursor step, provided the bars
scanned so far are non-negative; the running maximum stays non-negative. -/
theorem inv_stateAt (bars : List Int) :
    ∀ (x : Nat), (∀ k : Nat, k < x → 0 ≤ heightExt bars (k : Int)) →
      Inv bars (x : Int) (stateAt bars x).2 ∧ 0 ≤ (stateAt bars x).1 := by
  intro x
  induction x with
  | zero =>
    intro _
    rw [stateAt_zero]
    refine ⟨⟨by simp, by simp, ?_, ?_, ?_, ?_, ?_, ?_⟩, le_refl 0⟩
    · simp
    · intro p hp
      rcases List.mem_singleton.1 hp with h
      omega
    · intro p hp
      rcases List.mem_singleton.1 hp with h
      simp [h]
    · simp
    · exact ⟨-1, by simp, heightExt_neg_one bars⟩
    · simp
  | succ n ih =>
    intro hpre
    have ihn := ih (fun k hk => hpre k (by omega))
    rw [stateAt_succ]
    have hcast : ((n + 1 : Nat) : Int) = (n : Int) + 1 := by push_cast; ring
    have hstep := stepP_inv bars (n : Int) (stateAt bars n).1 (stateAt bars n).2
      ihn.1 (by omega) (hpre n (by omega))
    rw [hcast]
    constructor
    · exact hstep.1
    · exact hstep.2 ihn.2

/-!
Soundness: every candidate area produced by the drain loop is at most the
brute-force maximum.
-/

/-- A candidate `(x - q - 1) * height(p)` computed for an adjacent stack pair
`(p, q)` is the area of a genuine rectangle (`[q+1, x-1]` at height
`height(p)`), hence bounded by the brute-force maximum. -/
theorem cand_le_brute (bars : List Int) (x : Int) (s : List Int)
    (inv : Inv bars x s) (hxn : x ≤ (bars.length : Int))
    (u v : List Int) (p q : Int) (hs : s = u ++ p :: q :: v) :
    (x - q - 1) * heightExt bars p ≤ brute bars := by
  have hsuffix : List.Sublist (p :: q :: v) s := by
    rw [hs]
    exact List.sublist_append_right u _
  have hqp : q < p := by
    have := inv.sorted.sublist hsuffix
    exact (List.pairwise_cons.1 this).1 q (List.mem_cons_self q v)
  have hqlb : -1 ≤ q := inv.mem_lb q (hsuffix.mem (by simp))
  have hpub : p < x := inv.mem_ub p (hsuffix.mem (by simp))
  have hwidth : 0 ≤ x - q - 1 := by omega
  have hspan_pq : spanRel bars p q := by
    have hchain : List.Chain' (spanRel bars) (p :: q :: v) := by
      have := inv.span
      rw [hs] at this
      exact chain'_suffix u _ this
    exact (List.chain'_cons'.1 hchain).1 q rfl
  have habove : ∀ k : Int, p < k → k < x →
      heightExt bars p < heightExt bars k := by
    intro k hk1 hk2
    refine chain_above bars (heightExt bars p) u (p :: q :: v) (x - 1) p ?_ ?_ ?_
      ?_ k hk1 (by omega)
    · rw [← hs]; exact inv.span
    · rw [← hs]; exact inv.headEq
    · rw [List.head?_cons]
    · intro a ha
      have := inv.hsorted
      rw [hs, List.pairwise_append] at this
      exact this.2.2 a ha p (by simp)
  rcases le_or_lt (heightExt bars p) 0 with hp0 | hp0
  · calc (x - q - 1) * heightExt bars p ≤ (x - q - 1) * 0 :=
          mul_le_mul_of_nonneg_left hp0 hwidth
      _ = 0 := by ring
      _ ≤ brute bars := brute_nonneg bars
  · set i : Nat := (q + 1).toNat with hi
    set j : Nat := (x - 1).toNat with hj
    have hiq : (i : Int) = q + 1 := by omega
    have hjx : (j : Int) = x - 1 := by omega
    have hij : i ≤ j := by omega
    have hjn : j < bars.length := by omega
    have hmin : heightExt bars p ≤ minHeight bars i (j - i) := by
      refine le_minHeight bars (j - i) i (heightExt bars p) ?_
      intro k hk1 hk2
      have hk2' : k ≤ j := by omega
      rcases le_or_lt (k : Int) p with h | h
      · exact hspan_pq (k : Int) (by omega) h
      · exact le_of_lt (habove (k : Int) h (by omega))
    have harea : (x - q - 1) * heightExt bars p ≤
        ((j : Int) - (i : Int) + 1) * minHeight bars i (j - i) := by
      have hw : x - q - 1 = (j : Int) - (i : Int) + 1 := by omega
      rw [hw]
      exact mul_le_mul_of_nonneg_left hmin (by omega)
    exact le_trans harea (rect_le_brute bars i j hij hjn)

theorem drainP_le (bars : List Int) (x : Int) :
    ∀ (s : List Int) (best B : Int), best ≤ B →
      (∀ (u v : List Int) (p q : Int), s = u ++ p :: q :: v →
        (x - q - 1) * heightExt bars p ≤ B) →
      (drainP bars x s best).1 ≤ B := by
  intro s
  induction s with
  | nil => intro best B hb _; simpa [drainP] using hb
  | cons p rest ih =>
    intro best B hb hc
    cases rest with
    | nil => simpa [drainP] using hb
    | cons q rest' =>
      rw [drainP]
      by_cases h : heightExt bars x < heightExt bars p
      · rw [if_pos h]
        refine ih _ B (max_le hb (hc [] rest' p q rfl)) ?_
        intro u v p' q' hs
        exact hc (p :: u) v p' q' (by rw [List.cons_append, hs])
      · rw [if_neg h]
        exact hb

theorem stepP_le (bars : List Int) (x : Int) (best B : Int) (s : List Int)
    (hb : best ≤ B) (hB : 0 ≤ B)
    (hc : ∀ (u v : List Int) (p q : Int), s = u ++ p :: q :: v →
      (x - q - 1) * heightExt bars p ≤ B) :
    (stepP bars (best, s) x).1 ≤ B := by
  cases s with
  | nil => simpa [stepP] using hb
  | cons p t =>
    rw [stepP]
    by_cases h : heightExt bars p ≤ heightExt bars x
    · rw [if_pos h]
      exact hb
    · rw [if_neg h]
      exact max_le hb (drainP_le bars x (p :: t) 0 B hB hc)

/-- Soundness of the scan: the running maximum never exceeds the brute-force
maximum. -/
theorem stateAt_le_brute (bars : List Int) (hb : ∀ v ∈ bars, 0 ≤ v) :
    ∀ x : Nat, x ≤ bars.length + 1 → (stateAt bars x).1 ≤ brute bars := by
  intro x
  induction x with
  | zero =>
    intro _
    rw [stateAt_zero]
    exact brute_nonneg bars
  | succ n ih =>
    intro hn
    rw [stateAt_succ]
    have hinv := (inv_stateAt bars n
      (fun k _ => heightExt_nonneg bars hb (k : Int))).1
    refine stepP_le bars (n : Int) (stateAt bars n).1 (brute bars)
      (stateAt bars n).2 (ih (by omega)) (brute_nonneg bars) ?_
    intro u v p q hs
    exact cand_le_brute bars (n : Int) (stateAt bars n).2 hinv (by omega)
      u v p q hs

theorem runP_le_brute (bars : List Int) (hb : ∀ v ∈ bars, 0 ≤ v) :
    runP bars ≤ brute bars :=
  stateAt_le_brute bars hb (bars.length + 1) (le_refl _)

/-!
Completeness: the brute-force maximum is attained by some candidate of the
scan, hence bounded by the scan's result.
-/

theorem find_crossing (bars : List Int) (h : Int) :
    ∀ (s : List Int) (p₀ b : Int), s.head? = some p₀ →
      h ≤ heightExt bars p₀ → s.getLast? = some b → heightExt bars b < h →
      ∃ u p q v, s = u ++ p :: q :: v ∧ h ≤ heightExt bars p ∧
        heightExt bars q < h := by
  intro s
  induction s with
  | nil => intro p₀ b hh _ _ _; exact Option.noConfusion hh
  | cons a rest ih =>
    intro p₀ b hh hp₀ hlast hb
    rw [List.head?_cons] at hh
    injection hh with hh
    subst hh
    cases rest with
    | nil =>
      rw [List.getLast?_singleton] at hlast
      injection hlast with hlast
      subst hlast
      omega
    | cons c l =>
      by_cases hc : heightExt bars c < h
      · exact ⟨[], a, c, l, rfl, hp₀, hc⟩
      · rw [List.getLast?_cons_cons] at hlast
        obtain ⟨u, p, q, v, h1, h2, h3⟩ := ih c b (List.head?_cons)
          (le_of_not_lt hc) hlast hb
        exact ⟨a :: u, p, q, v, by rw [List.cons_append, h1], h2, h3⟩

theorem drainP_ge (bars : List Int) (x : Int) :
    ∀ (u s : List Int) (p q : Int) (v : List Int) (best : Int),
      s = u ++ p :: q :: v →
      (∀ a ∈ u, heightExt bars x < heightExt bars a) →
      heightExt bars x < heightExt bars p →
      (x - q - 1) * heightExt bars p ≤ (drainP bars x s best).1 := by
  intro u
  induction u with
  | nil =>
    intro s p q v best hs _ hp
    subst hs
    rw [List.nil_append, drainP, if_pos hp]
    calc (x - q - 1) * heightExt bars p ≤
        max best ((x - q - 1) * heightExt bars p) := le_max_right _ _
      _ ≤ _ := drainP_best_le bars x (q :: v) _
  | cons a u' ih =>
    intro s p q v best hs hall hp
    subst hs
    obtain ⟨w1, w2, hw⟩ : ∃ w1 w2, u' ++ p :: q :: v = w1 :: w2 := by
      cases u' with
      | nil => exact ⟨p, q :: v, rfl⟩
      | cons b u'' => exact ⟨b, u'' ++ p :: q :: v, rfl⟩
    rw [List.cons_append, hw, drainP,
      if_pos (hall a (List.mem_cons_self a u'))]
    rw [← hw]
    exact ih _ p q v _ rfl
      (fun b hb => hall b (List.mem_cons_of_mem a hb)) hp

theorem stepP_fst_le (bars : List Int) (acc : Int × List Int) (x : Int) :
    acc.1 ≤ (stepP bars acc x).1 := by
  obtain ⟨best, s⟩ := acc
  cases s with
  | nil => simp [stepP]
  | cons p t =>
    rw [stepP]
    by_cases h : heightExt bars p ≤ heightExt bars x
    · rw [if_pos h]
    · rw [if_neg h]
      exact le_max_left _ _

theorem stateAt_fst_mono (bars : List Int) :
    ∀ x y : Nat, x ≤ y → (stateAt bars x).1 ≤ (stateAt bars y).1 := by
  intro x y
  induction y with
  | zero =>
    intro hy
    have : x = 0 := by omega
    subst this
    exact le_refl _
  | succ n ih =>
    intro hy
    by_cases hxy : x = n + 1
    · subst hxy; exact le_refl _
    · have := ih (by omega)
      rw [stateAt_succ]
      exact le_trans this (stepP_fst_le bars _ _)

theorem stepP_fst_else (bars : List Int) (x best : Int) (p : Int)
    (t : List Int) (hc : ¬ heightExt bars p ≤ heightExt bars x) :
    (stepP bars (best, p :: t) x).1 = max best (drainP bars x (p :: t) 0).1 := by
  simp only [stepP, if_neg hc]

/-- Completeness of the scan: the brute-force maximum is reached. -/
theorem brute_le_runP (bars : List Int) (hb : ∀ v ∈ bars, 0 ≤ v) :
    brute bars ≤ runP bars := by
  have hpre : ∀ k : Nat, k < bars.length + 1 → 0 ≤ heightExt bars (k : Int) :=
    fun k _ => heightExt_nonneg bars hb _
  have hrun0 : 0 ≤ runP bars := (inv_stateAt bars (bars.length + 1) hpre).2
  rcases brute_attained bars with h0 | ⟨i, len, hi, hlen, hval⟩
  · rw [h0]; exact hrun0
  · set hgt := minHeight bars i len with hh
    rcases le_or_lt hgt 0 with hneg | hpos
    · have : brute bars ≤ 0 := by
        rw [hval]
        calc ((len : Int) + 1) * hgt ≤ ((len : Int) + 1) * 0 :=
            mul_le_mul_of_nonneg_left hneg (by omega)
          _ = 0 := by ring
      exact le_trans this hrun0
    · set j := i + len with hj
      have hjn : j < bars.length := by omega
      have hPn : j < bars.length ∧
          heightExt bars ((bars.length : Nat) : Int) < hgt := by
        refine ⟨hjn, ?_⟩
        rw [heightExt_of_le bars _ (by omega)]
        exact hpos
      have hex : ∃ m, j < m ∧ heightExt bars (m : Int) < hgt :=
        ⟨bars.length, hPn⟩
      set r := Nat.find hex with hr
      have hrspec := Nat.find_spec hex
      have hrj : j < r := hrspec.1
      have hrh : heightExt bars (r : Int) < hgt := hrspec.2
      have hrn : r ≤ bars.length := Nat.find_min' hex hPn
      have hkey : ∀ k : Nat, i ≤ k → k < r → hgt ≤ heightExt bars (k : Int) := by
        intro k hk1 hk2
        rcases le_or_lt k j with hkj | hkj
        · rw [hh]
          exact minHeight_le bars len i k hk1 (by omega)
        · have := Nat.find_min hex hk2
          rw [not_and] at this
          exact le_of_not_lt (this hkj)
      have hinv := (inv_stateAt bars r (fun k _ => heightExt_nonneg bars hb _)).1
      obtain ⟨p₀, t, hs⟩ : ∃ p₀ t, (stateAt bars r).2 = p₀ :: t := by
        cases hcase : (stateAt bars r).2 with
        | nil => exact absurd hcase hinv.ne
        | cons p₀ t => exact ⟨p₀, t, rfl⟩
      have hp₀ : p₀ = (r : Int) - 1 := by
        have := hinv.headEq
        rw [hs, List.head?_cons] at this
        injection this with h'
      have hr1 : r ≥ 1 := by omega
      have hp₀h : hgt ≤ heightExt bars p₀ := by
        have hcast : p₀ = ((r - 1 : Nat) : Int) := by omega
        rw [hcast]
        exact hkey (r - 1) (by omega) (by omega)
      obtain ⟨b, hb1, hb2⟩ := hinv.bottom
      obtain ⟨u, p, q, v, hdec, hph, hqh⟩ := find_crossing bars hgt
        (stateAt bars r).2 p₀ b (by rw [hs, List.head?_cons]) hp₀h hb1 (by omega)
      have hall : ∀ a ∈ u, heightExt bars (r : Int) < heightExt bars a := by
        intro a ha
        have hps := hinv.hsorted
        rw [hdec, List.pairwise_append] at hps
        have := hps.2.2 a ha p (by simp)
        omega
      have hcand := drainP_ge bars (r : Int) u (stateAt bars r).2 p q v 0 hdec
        hall (by omega)
      have hq : q < (i : Int) := by
        by_contra hcon
        push_neg at hcon
        have hq0 : 0 ≤ q := by omega
        have hqr : q < (r : Int) := by
          refine hinv.mem_ub q ?_
          rw [hdec]
          exact List.mem_append_right u (by simp)
        have hcast : q = ((q.toNat : Nat) : Int) := by omega
        have := hkey q.toNat (by omega) (by omega)
        rw [← hcast] at this
        omega
      have hbrute_cand : brute bars ≤ ((r : Int) - q - 1) * heightExt bars p := by
        rw [hval]
        refine mul_le_mul (by omega) hph (le_of_lt hpos) (by omega)
      have hstep : brute bars ≤ (stateAt bars (r + 1)).1 := by
        rw [stateAt_succ]
        have hpair : stateAt bars r = ((stateAt bars r).1, p₀ :: t) := by
          rw [← hs]
        rw [hpair, stepP_fst_else bars (r : Int) (stateAt bars r).1 p₀ t
          (by omega)]
        rw [hs] at hcand
        have h1 : brute bars ≤ (drainP bars (r : Int) (p₀ :: t) 0).1 :=
          le_trans hbrute_cand hcand
        exact le_trans h1 (le_max_right _ _)
      have hmono := stateAt_fst_mono bars (r + 1) (bars.length + 1) (by omega)
      exact le_trans hstep hmono

/-- The pure scan equals the brute-force reference on non-negative
histograms. -/
theorem runP_eq_brute (bars : List Int) (hb : ∀ v ∈ bars, 0 ≤ v) :
    runP bars = brute bars :=
  le_antisymm (runP_le_brute bars hb) (brute_le_runP bars hb)

/-!
Bridge between the faithful `Option` layer and the pure mirror: under the
stack invariant, and while the scanned bars are non-negative, no assertion
fires and the two layers agree.
-/

theorem height_at_eq (bars st : List Int) (z : Int) (h1 : -1 ≤ z)
    (h2 : z ≤ (bars.length : Int)) :
    Searcher.height_at ⟨bars, st⟩ z = some (heightExt bars z) := by
  rw [Searcher.height_at]
  simp only [Searcher.width]
  rw [if_pos ⟨h1, h2⟩]
  rfl

theorem drain_go_eq (bars : List Int) (x : Int) (h1 : -1 ≤ x)
    (h2 : x ≤ (bars.length : Int)) (hx0 : 0 ≤ heightExt bars x) :
    ∀ (st : List Int) (best : Int),
      (∀ p ∈ st, -1 ≤ p ∧ p ≤ (bars.length : Int)) →
      (∃ b, st.getLast? = some b ∧ heightExt bars b = 0) →
      drain_go bars x st best = some (drainP bars x st best) := by
  intro st
  induction st with
  | nil =>
    intro best _ hbot
    obtain ⟨b, hb, _⟩ := hbot
    exact Option.noConfusion hb
  | cons p rest ih =>
    intro best hval hbot
    have hp := hval p (List.mem_cons_self p rest)
    rw [drain_go, height_at_eq bars (p :: rest) p hp.1 hp.2,
      height_at_eq bars (p :: rest) x h1 h2]
    simp only [Option.bind_eq_bind, Option.some_bind]
    cases rest with
    | nil =>
      obtain ⟨b, hb1, hb2⟩ := hbot
      rw [List.getLast?_singleton] at hb1
      injection hb1 with hb1
      subst hb1
      have hcond : ¬ heightExt bars x < heightExt bars p := by omega
      rw [if_neg hcond]
      simp [drainP]
    | cons q rest' =>
      by_cases hcond : heightExt bars x < heightExt bars p
      · rw [if_pos hcond]
        rw [Searcher.compute_area_of_rectangle_at_last_recorded_bar]
        simp only
        rw [height_at_eq bars (p :: q :: rest') p hp.1 hp.2]
        simp only [Option.pure_def, Option.bind_eq_bind, Option.some_bind]
        have hbot' : ∃ b, (q :: rest').getLast? = some b ∧
            heightExt bars b = 0 := by
          obtain ⟨b, hb1, hb2⟩ := hbot
          rw [List.getLast?_cons_cons] at hb1
          exact ⟨b, hb1, hb2⟩
        rw [ih _ (fun p' hp' => hval p' (List.mem_cons_of_mem p hp')) hbot']
        rw [drainP, if_pos hcond]
      · rw [if_neg hcond]
        rw [drainP, if_neg hcond]

theorem adjust_eq (bars : List Int) (x : Int) (p : Int) (t : List Int)
    (hpv : -1 ≤ p ∧ p ≤ (bars.length : Int))
    (hxv : -1 ≤ x ∧ x ≤ (bars.length : Int))
    (hple : heightExt bars p ≤ heightExt bars x) :
    Searcher.adjust_recorded_bars_of_increasing_height ⟨bars, p :: t⟩ x =
      some ⟨bars, adjustP bars x (p :: t)⟩ := by
  have hlast : Searcher.height_of_last_recorded_bar ⟨bars, p :: t⟩ =
      some (heightExt bars p) := by
    rw [Searcher.height_of_last_recorded_bar]
    simp only [last_element, List.head?_cons, Option.bind_eq_bind,
      Option.some_bind]
    exact height_at_eq bars (p :: t) p hpv.1 hpv.2
  have hhi : Searcher.new_bar_is_higher ⟨bars, p :: t⟩ x =
      some (decide (heightExt bars p < heightExt bars x)) := by
    rw [Searcher.new_bar_is_higher]
    simp only [List.isEmpty_cons, Bool.false_eq_true, if_false,
      Option.bind_eq_bind]
    rw [height_at_eq bars (p :: t) x hxv.1 hxv.2, hlast]
    simp only [Option.pure_def, Option.some_bind]
  have hsame : Searcher.new_bar_is_same_size ⟨bars, p :: t⟩ x =
      some (decide (heightExt bars p = heightExt bars x)) := by
    rw [Searcher.new_bar_is_same_size]
    simp only [List.isEmpty_cons, Bool.false_eq_true, if_false,
      Option.bind_eq_bind]
    rw [height_at_eq bars (p :: t) x hxv.1 hxv.2, hlast]
    simp only [Option.pure_def, Option.some_bind]
  have hnl : Searcher.new_bar_is_not_lower ⟨bars, p :: t⟩ x = some true := by
    rw [Searcher.new_bar_is_not_lower, hhi, hsame]
    simp only [Option.bind_eq_bind, Option.some_bind, Option.some.injEq]
    rcases lt_or_eq_of_le hple with h | h
    · simp [h]
    · simp [h]
  rw [Searcher.adjust_recorded_bars_of_increasing_height, hnl]
  simp only [Option.bind_eq_bind, Option.some_bind, if_true, hhi]
  by_cases hc : heightExt bars p < heightExt bars x
  · rw [adjustP, if_pos hc]
    simp [hc]
  · rw [adjustP, if_neg hc]
    simp [hc, replace_last_element]

theorem step_eq (bars : List Int) (x best : Int) (s : List Int)
    (inv : Inv bars x s) (hx0 : 0 ≤ x) (hxn : x ≤ (bars.length : Int))
    (hxh : 0 ≤ heightExt bars x) :
    Searcher.step (best, ⟨bars, s⟩) x =
      some ((stepP bars (best, s) x).1, ⟨bars, (stepP bars (best, s) x).2⟩) := by
  obtain ⟨p, t, rfl⟩ : ∃ p t, s = p :: t := by
    cases s with
    | nil => exact absurd rfl inv.ne
    | cons p t => exact ⟨p, t, rfl⟩
  have hpv : -1 ≤ p ∧ p ≤ (bars.length : Int) := by
    have h1 := inv.mem_lb p (List.mem_cons_self p t)
    have h2 := inv.mem_ub p (List.mem_cons_self p t)
    omega
  have hxv : -1 ≤ x ∧ x ≤ (bars.length : Int) := ⟨by omega, hxn⟩
  have hlast : Searcher.height_of_last_recorded_bar ⟨bars, p :: t⟩ =
      some (heightExt bars p) := by
    rw [Searcher.height_of_last_recorded_bar]
    simp only [last_element, List.head?_cons, Option.bind_eq_bind,
      Option.some_bind]
    exact height_at_eq bars (p :: t) p hpv.1 hpv.2
  have hhi : Searcher.new_bar_is_higher ⟨bars, p :: t⟩ x =
      some (decide (heightExt bars p < heightExt bars x)) := by
    rw [Searcher.new_bar_is_higher]
    simp only [List.isEmpty_cons, Bool.false_eq_true, if_false,
      Option.bind_eq_bind]
    rw [height_at_eq bars (p :: t) x hxv.1 hxv.2, hlast]
    simp only [Option.pure_def, Option.some_bind]
  have hsame : Searcher.new_bar_is_same_size ⟨bars, p :: t⟩ x =
      some (decide (heightExt bars p = heightExt bars x)) := by
    rw [Searcher.new_bar_is_same_size]
    simp only [List.isEmpty_cons, Bool.false_eq_true, if_false,
      Option.bind_eq_bind]
    rw [height_at_eq bars (p :: t) x hxv.1 hxv.2, hlast]
    simp only [Option.pure_def, Option.some_bind]
  have hnl : Searcher.new_bar_is_not_lower ⟨bars, p :: t⟩ x =
      some (decide (heightExt bars p ≤ heightExt bars x)) := by
    rw [Searcher.new_bar_is_not_lower, hhi, hsame]
    simp only [Option.bind_eq_bind, Option.some_bind, Option.some.injEq]
    by_cases h : heightExt bars p ≤ heightExt bars x
    · rcases lt_or_eq_of_le h with h' | h' <;> simp [h, h']
    · have h1 : ¬ heightExt bars p < heightExt bars x := by omega
      have h2 : ¬ heightExt bars p = heightExt bars x := by omega
      simp [h, h1, h2]
  rw [Searcher.step, hnl]
  simp only [Option.bind_eq_bind, Option.some_bind]
  by_cases hc : heightExt bars p ≤ heightExt bars x
  · rw [if_pos (by simp [hc])]
    rw [adjust_eq bars x p t hpv hxv hc]
    simp only [Option.some_bind]
    have hstep : stepP bars (best, p :: t) x = (best, adjustP bars x (p :: t)) := by
      simp only [stepP, if_pos hc]
    rw [hstep]
    rfl
  · rw [if_neg (by simp [hc])]
    rw [Searcher.compute_area_of_largest_rectangle_impl]
    simp only [List.isEmpty_cons, Bool.false_eq_true, if_false,
      Option.bind_eq_bind]
    rw [height_at_eq bars (p :: t) x hxv.1 hxv.2]
    simp only [Option.some_bind]
    have hval : ∀ p' ∈ (p :: t), -1 ≤ p' ∧ p' ≤ (bars.length : Int) := by
      intro p' hp'
      have h1 := inv.mem_lb p' hp'
      have h2 := inv.mem_ub p' hp'
      omega
    rw [drain_go_eq bars x (by omega) hxn hxh (p :: t) 0 hval inv.bottom]
    simp only [Option.some_bind]
    obtain ⟨b, hb1, hb2⟩ := inv.bottom
    obtain ⟨p₂, t₂, hd2, hple₂⟩ := drainP_head_le bars x hxh (p :: t) 0 b hb1 hb2
    obtain ⟨u, hu, _⟩ := drainP_decomp bars x (p :: t) 0
    have hval₂ : -1 ≤ p₂ ∧ p₂ ≤ (bars.length : Int) := by
      refine hval p₂ ?_
      rw [hu, hd2]
      exact List.mem_append_right u (List.mem_cons_self p₂ t₂)
    rw [hd2, adjust_eq bars x p₂ t₂ hval₂ hxv hple₂]
    simp only [Option.some_bind]
    have hstep : stepP bars (best, p :: t) x =
        (max best (drainP bars x (p :: t) 0).1,
          adjustP bars x (drainP bars x (p :: t) 0).2) := by
      simp only [stepP, if_neg (by omega : ¬ heightExt bars p ≤ heightExt bars x)]
    rw [hstep, hd2]
    rfl

theorem scan_append (l1 : List Nat) :
    ∀ (l2 : List Nat) (acc : Int × Searcher),
      Searcher.scan acc (l1 ++ l2) =
        (Searcher.scan acc l1).bind (fun acc' => Searcher.scan acc' l2) := by
  induction l1 with
  | nil =>
    intro l2 acc
    simp [Searcher.scan]
  | cons k ks ih =>
    intro l2 acc
    rw [List.cons_append, Searcher.scan, Searcher.scan]
    simp only [Option.bind_eq_bind]
    cases Searcher.step acc (k : Int) with
    | none => simp
    | some acc' =>
      simp only [Option.some_bind]
      exact ih l2 acc'

/-- The faithful scan agrees with the pure mirror while all scanned bars are
non-negative. -/
theorem scan_eq_stateAt (bars : List Int) :
    ∀ x : Nat, x ≤ bars.length + 1 →
      (∀ k : Nat, k < x → 0 ≤ heightExt bars (k : Int)) →
      Searcher.scan (0, Searcher.new bars) (List.range x) =
        some ((stateAt bars x).1, ⟨bars, (stateAt bars x).2⟩) := by
  intro x
  induction x with
  | zero =>
    intro _ _
    rw [stateAt_zero]
    rfl
  | succ n ih =>
    intro hn hpre
    rw [List.range_succ, scan_append]
    rw [ih (by omega) (fun k hk => hpre k (by omega))]
    simp only [Option.some_bind]
    rw [Searcher.scan]
    have hinv := (inv_stateAt bars n (fun k hk => hpre k (by omega))).1
    rw [step_eq bars (n : Int) (stateAt bars n).1 (stateAt bars n).2 hinv
      (by omega) (by omega) (hpre n (by omega))]
    simp only [Option.bind_eq_bind, Option.some_bind, Searcher.scan]
    rw [stateAt_succ]

/-- On a histogram whose bars are all non-negative, the faithful embedding
completes and returns the pure scan's result. -/
theorem compute_eq_runP (bars : List Int) (hb : ∀ v ∈ bars, 0 ≤ v) :
    compute_area_of_largest_rectangle bars = some (runP bars) := by
  rw [compute_area_of_largest_rectangle,
    Searcher.compute_area_of_largest_rectangle]
  simp only [Option.bind_eq_bind]
  have hh : (Searcher.new bars).histogram = bars := rfl
  rw [hh]
  rw [scan_eq_stateAt bars (bars.length + 1) (le_refl _)
    (fun k _ => heightExt_nonneg bars hb _)]
  simp only [Option.some_bind]
  rfl

/-!
The abort path: a negative bar height (contract violation) drives the drain
loop down to the sentinel alone and the `assert!(len >= 2)` in
`compute_area_of_rectangle_at_last_recorded_bar` fails.
-/

theorem heightExt_coe_getElem (bars : List Int) (i : Nat)
    (h : i < bars.length) : heightExt bars (i : Int) = bars[i] := by
  rw [heightExt, if_pos ⟨by omega, by omega⟩, List.getD_eq_getElem?_getD]
  have ht : ((i : Int)).toNat = i := by omega
  rw [ht, List.getElem?_eq_getElem h]
  rfl

theorem not_lower_eq (bars : List Int) (x p : Int) (t : List Int)
    (hpv : -1 ≤ p ∧ p ≤ (bars.length : Int))
    (hxv : -1 ≤ x ∧ x ≤ (bars.length : Int)) :
    Searcher.new_bar_is_not_lower ⟨bars, p :: t⟩ x =
      some (decide (heightExt bars p ≤ heightExt bars x)) := by
  have hlast : Searcher.height_of_last_recorded_bar ⟨bars, p :: t⟩ =
      some (heightExt bars p) := by
    rw [Searcher.height_of_last_recorded_bar]
    simp only [last_element, List.head?_cons, Option.bind_eq_bind,
      Option.some_bind]
    exact height_at_eq bars (p :: t) p hpv.1 hpv.2
  have hhi : Searcher.new_bar_is_higher ⟨bars, p :: t⟩ x =
      some (decide (heightExt bars p < heightExt bars x)) := by
    rw [Searcher.new_bar_is_higher]
    simp only [List.isEmpty_cons, Bool.false_eq_true, if_false,
      Option.bind_eq_bind]
    rw [height_at_eq bars (p :: t) x hxv.1 hxv.2, hlast]
    simp only [Option.pure_def, Option.some_bind]
  have hsame : Searcher.new_bar_is_same_size ⟨bars, p :: t⟩ x =
      some (decide (heightExt bars p = heightExt bars x)) := by
    rw [Searcher.new_bar_is_same_size]
    simp only [List.isEmpty_cons, Bool.false_eq_true, if_false,
      Option.bind_eq_bind]
    rw [height_at_eq bars (p :: t) x hxv.1 hxv.2, hlast]
    simp only [Option.pure_def, Option.some_bind]
  rw [Searcher.new_bar_is_not_lower, hhi, hsame]
  simp only [Option.bind_eq_bind, Option.some_bind, Option.pure_def,
    Option.some.injEq]
  by_cases h : heightExt bars p ≤ heightExt bars x
  · rcases lt_or_eq_of_le h with h' | h' <;> simp [h, h']
  · have h1 : ¬ heightExt bars p < heightExt bars x := by omega
    have h2 : ¬ heightExt bars p = heightExt bars x := by omega
    simp [h, h1, h2]

/-- When every recorded position is strictly higher than the cursor bar, the
drain loop pops everything and fails the two-element assertion on the last
element. -/
theorem drain_go_none (bars : List Int) (x : Int) (h1 : -1 ≤ x)
    (h2 : x ≤ (bars.length : Int)) :
    ∀ (st : List Int) (best : Int), st ≠ [] →
      (∀ p ∈ st, -1 ≤ p ∧ p ≤ (bars.length : Int)) →
      (∀ p ∈ st, heightExt bars x < heightExt bars p) →
      drain_go bars x st best = none := by
  intro st
  induction st with
  | nil => intro best h _ _; exact absurd rfl h
  | cons p rest ih =>
    intro best _ hval hgt
    have hp := hval p (List.mem_cons_self p rest)
    rw [drain_go, height_at_eq bars (p :: rest) p hp.1 hp.2,
      height_at_eq bars (p :: rest) x h1 h2]
    simp only [Option.bind_eq_bind, Option.some_bind]
    rw [if_pos (hgt p (List.mem_cons_self p rest))]
    cases rest with
    | nil =>
      rw [Searcher.compute_area_of_rectangle_at_last_recorded_bar]
      rfl
    | cons q rest' =>
      rw [Searcher.compute_area_of_rectangle_at_last_recorded_bar]
      simp only
      rw [height_at_eq bars (p :: q :: rest') p hp.1 hp.2]
      simp only [Option.pure_def, Option.bind_eq_bind, Option.some_bind]
      exact ih _ (by simp) (fun p' h' => hval p' (List.mem_cons_of_mem p h'))
        (fun p' h' => hgt p' (List.mem_cons_of_mem p h'))

theorem step_none_of_neg (bars : List Int) (m : Nat) (best : Int)
    (s : List Int) (inv : Inv bars (m : Int) s)
    (hmlen : m < bars.length)
    (hneg : heightExt bars (m : Int) < 0)
    (hpre : ∀ k : Nat, k < m → 0 ≤ heightExt bars (k : Int)) :
    Searcher.step (best, ⟨bars, s⟩) (m : Int) = none := by
  obtain ⟨p, t, rfl⟩ : ∃ p t, s = p :: t := by
    cases s with
    | nil => exact absurd rfl inv.ne
    | cons p t => exact ⟨p, t, rfl⟩
  have hval : ∀ p' ∈ (p :: t), -1 ≤ p' ∧ p' ≤ (bars.length : Int) := by
    intro p' hp'
    have ha := inv.mem_lb p' hp'
    have hb := inv.mem_ub p' hp'
    omega
  have hnn : ∀ p' ∈ (p :: t), 0 ≤ heightExt bars p' := by
    intro p' hp'
    have ha := inv.mem_lb p' hp'
    have hb := inv.mem_ub p' hp'
    rcases lt_or_le p' 0 with h | h
    · rw [heightExt_of_neg bars p' h]
    · have hcast : p' = ((p'.toNat : Nat) : Int) := by omega
      rw [hcast]
      exact hpre p'.toNat (by omega)
  have hxv : -1 ≤ (m : Int) ∧ (m : Int) ≤ (bars.length : Int) :=
    ⟨by omega, by omega⟩
  rw [Searcher.step]
  simp only [Option.bind_eq_bind]
  rw [not_lower_eq bars (m : Int) p t (hval p (List.mem_cons_self p t)) hxv]
  simp only [Option.some_bind]
  have hp0 : 0 ≤ heightExt bars p := hnn p (List.mem_cons_self p t)
  rw [if_neg (by simp; omega)]
  rw [Searcher.compute_area_of_largest_rectangle_impl]
  simp only [List.isEmpty_cons, Bool.false_eq_true, if_false,
    Option.bind_eq_bind]
  rw [height_at_eq bars (p :: t) (m : Int) hxv.1 hxv.2]
  simp only [Option.some_bind]
  rw [drain_go_none bars (m : Int) hxv.1 hxv.2 (p :: t) 0 (by simp) hval
    (fun p' h' => by have := hnn p' h'; omega)]
  rfl

theorem range_split (m : Nat) :
    ∀ x : Nat, m < x → ∃ l, List.range x = List.range m ++ m :: l := by
  intro x
  induction x with
  | zero => intro h; omega
  | succ n ih =>
    intro h
    by_cases hm : m = n
    · subst hm
      exact ⟨[], by rw [List.range_succ]⟩
    · obtain ⟨l, hl⟩ := ih (by omega)
      refine ⟨l ++ [n], ?_⟩
      rw [List.range_succ, hl, List.append_assoc, List.cons_append]

/-- A histogram containing a negative bar makes the faithful computation
abort (return `none`): at the first negative bar the drain loop pops the
whole stack and the two-element assertion fails. -/
theorem compute_none_of_neg (bars : List Int) (hneg : ∃ v ∈ bars, v < 0) :
    compute_area_of_largest_rectangle bars = none := by
  have hex : ∃ i : Nat, heightExt bars (i : Int) < 0 := by
    obtain ⟨v, hv, hvn⟩ := hneg
    obtain ⟨i, hi, hiv⟩ := List.mem_iff_getElem.1 hv
    refine ⟨i, ?_⟩
    rw [heightExt_coe_getElem bars i hi, hiv]
    exact hvn
  set m := Nat.find hex with hm
  have hmneg : heightExt bars (m : Int) < 0 := Nat.find_spec hex
  have hmin : ∀ k : Nat, k < m → 0 ≤ heightExt bars (k : Int) :=
    fun k hk => le_of_not_lt (Nat.find_min hex hk)
  have hmlen : m < bars.length := by
    by_contra hcon
    rw [heightExt_of_le bars _ (by omega)] at hmneg
    omega
  obtain ⟨l, hl⟩ := range_split m (bars.length + 1) (by omega)
  rw [compute_area_of_largest_rectangle,
    Searcher.compute_area_of_largest_rectangle]
  simp only [Option.bind_eq_bind]
  have hh : (Searcher.new bars).histogram = bars := rfl
  rw [hh, hl, scan_append]
  rw [scan_eq_stateAt bars m (by omega) hmin]
  simp only [Option.some_bind]
  rw [Searcher.scan]
  have hinv := (inv_stateAt bars m hmin).1
  rw [step_none_of_neg bars m (stateAt bars m).1 (stateAt bars m).2 hinv
    hmlen hmneg hmin]
  rfl

/-!
Purity: the searcher never writes to the borrowed histogram, so the
histogram component of the final state is the input histogram.
-/

theorem adjust_histogram (s : Searcher) (x : Int) (s' : Searcher)
    (h : s.adjust_recorded_bars_of_increasing_height x = some s') :
    s'.histogram = s.histogram := by
  rw [Searcher.adjust_recorded_bars_of_increasing_height] at h
  simp only [Option.bind_eq_bind] at h
  obtain ⟨nl, hnl, h⟩ := Option.bind_eq_some.1 h
  cases nl with
  | false => simp at h
  | true =>
    simp only [if_true] at h
    obtain ⟨hi, hhi, h⟩ := Option.bind_eq_some.1 h
    cases hi with
    | true =>
      simp only [if_true, Option.pure_def, Option.some.injEq] at h
      rw [← h]
    | false =>
      simp only [Bool.false_eq_true, if_false] at h
      obtain ⟨st, hst, h⟩ := Option.bind_eq_some.1 h
      simp only [Option.pure_def, Option.some.injEq] at h
      rw [← h]

theorem impl_histogram (s : Searcher) (x : Int) (a : Int) (s' : Searcher)
    (h : s.compute_area_of_largest_rectangle_impl x = some (a, s')) :
    s'.histogram = s.histogram := by
  rw [Searcher.compute_area_of_largest_rectangle_impl] at h
  by_cases he : s.recorded_bars_of_increasing_height.isEmpty
  · rw [if_pos he] at h
    exact Option.noConfusion h
  · rw [if_neg he] at h
    simp only [Option.bind_eq_bind] at h
    obtain ⟨c, hc, h⟩ := Option.bind_eq_some.1 h
    obtain ⟨⟨a', st⟩, hd, h⟩ := Option.bind_eq_some.1 h
    simp only at h
    obtain ⟨s'', hadj, h⟩ := Option.bind_eq_some.1 h
    simp only [Option.pure_def, Option.some.injEq, Prod.mk.injEq] at h
    have := adjust_histogram ⟨s.histogram, st⟩ x s'' hadj
    rw [← h.2]
    exact this

theorem step_histogram (acc : Int × Searcher) (x : Int) (r : Int × Searcher)
    (h : Searcher.step acc x = some r) : r.2.histogram = acc.2.histogram := by
  rw [Searcher.step] at h
  simp only [Option.bind_eq_bind] at h
  obtain ⟨nl, hnl, h⟩ := Option.bind_eq_some.1 h
  by_cases hb : nl = true
  · subst hb
    simp only [if_true] at h
    obtain ⟨s', hadj, h⟩ := Option.bind_eq_some.1 h
    simp only [Option.pure_def, Option.some.injEq] at h
    rw [← h]
    exact adjust_histogram acc.2 x s' hadj
  · have hb' : nl = false := by
      cases nl
      · rfl
      · exact absurd rfl hb
    subst hb'
    simp only [Bool.false_eq_true, if_false] at h
    obtain ⟨⟨a, s'⟩, himpl, h⟩ := Option.bind_eq_some.1 h
    simp only [Option.pure_def, Option.some.injEq] at h
    rw [← h]
    exact impl_histogram acc.2 x a s' himpl

theorem scan_histogram :
    ∀ (l : List Nat) (acc : Int × Searcher) (r : Int × Searcher),
      Searcher.scan acc l = some r → r.2.histogram = acc.2.histogram := by
  intro l
  induction l with
  | nil =>
    intro acc r h
    rw [Searcher.scan] at h
    injection h with h
    rw [← h]
  | cons k ks ih =>
    intro acc r h
    rw [Searcher.scan] at h
    simp only [Option.bind_eq_bind] at h
    obtain ⟨acc', hstep, h⟩ := Option.bind_eq_some.1 h
    rw [ih acc' r h]
    exact step_histogram acc (k : Int) acc' hstep

/-!
Characterisation of the zero result (spec §8, first bullet).
-/

theorem heightExt_all_zero (bars : List Int) (h : ∀ v ∈ bars, v = 0)
    (z : Int) : heightExt bars z = 0 := by
  rw [heightExt]
  by_cases hc : 0 ≤ z ∧ z < (bars.length : Int)
  · rw [if_pos hc]
    exact h _ (heightExt_mem bars z hc.1 hc.2)
  · rw [if_neg hc]

theorem brute_eq_zero_iff (bars : List Int) (hb : ∀ v ∈ bars, 0 ≤ v) :
    brute bars = 0 ↔ (bars.length = 0 ∨ ∀ v ∈ bars, v = 0) := by
  constructor
  · intro h0
    by_contra hcon
    push_neg at hcon
    obtain ⟨hne, v, hv, hvne⟩ := hcon
    obtain ⟨i, hi, hiv⟩ := List.mem_iff_getElem.1 hv
    have hvpos : 0 < v := lt_of_le_of_ne (hb v hv) (Ne.symm hvne)
    have hmin : minHeight bars i (i - i) = v := by
      have : i - i = 0 := by omega
      rw [this]
      show heightExt bars (i : Int) = v
      rw [heightExt_coe_getElem bars i hi, hiv]
    have := rect_le_brute bars i i (le_refl i) hi
    rw [hmin] at this
    have : v ≤ brute bars := by
      have h1 : ((i : Int) - (i : Int) + 1) * v = v := by ring
      rw [h1] at this
      exact this
    omega
  · intro h
    rcases h with h | h
    · have : bars = [] := List.length_eq_zero.1 h
      subst this
      rfl
    · refine le_antisymm ?_ (brute_nonneg bars)
      refine foldMax_le _ _ _ _ (le_refl 0) ?_
      intro i _
      refine foldMax_le _ _ _ _ (le_refl 0) ?_
      intro len _
      have hm0 : minHeight bars i len = 0 := by
        refine le_antisymm ?_ ?_
        · have := minHeight_le bars len i i (le_refl i) (by omega)
          rw [heightExt_all_zero bars h] at this
          exact this
        · refine le_minHeight bars len i 0 ?_
          intro k _ _
          rw [heightExt_all_zero bars h]
      rw [hm0]
      simp

/-!
Spec-side view of the record rule (spec §9): a tagged operation
`Push`/`ReplaceTop` chosen by comparing the new bar's height with the
current top's height.
-/

inductive RecordOp where
  | push (pos : Int)
  | replaceTop (pos : Int)
deriving DecidableEq, Repr

/-- The spec's choice rule: strictly higher pushes, otherwise (on the
not-lower domain: exactly equal) the top is replaced. -/
def chooseOp (bars : List Int) (x top : Int) : RecordOp :=
  if heightExt bars top < heightExt bars x then RecordOp.push x
  else RecordOp.replaceTop x

def applyOp : RecordOp → List Int → List Int
  | RecordOp.push v, s => v :: s
  | RecordOp.replaceTop v, s => v :: s.tail

/-!
Spec-side view of the drain loop (spec §4.1 step 2b): the list of candidate
areas `height(popped) * (x - secondLastRemaining - 1)` produced while the
top's height strictly exceeds the cursor bar's height.
-/

def popCandidates (bars : List Int) (x : Int) : List Int → List Int
  | p :: q :: rest =>
    if heightExt bars x < heightExt bars p then
      (heightExt bars p * (x - q - 1)) :: popCandidates bars x (q :: rest)
    else []
  | _ => []

theorem drainP_fst_eq_fold (bars : List Int) (x : Int) :
    ∀ (s : List Int) (best : Int),
      (drainP bars x s best).1 = (popCandidates bars x s).foldl max best := by
  intro s
  induction s with
  | nil => intro best; simp [drainP, popCandidates]
  | cons p rest ih =>
    intro best
    cases rest with
    | nil => simp [drainP, popCandidates]
    | cons q rest' =>
      rw [drainP, popCandidates]
      by_cases hc : heightExt bars x < heightExt bars p
      · rw [if_pos hc, if_pos hc, List.foldl_cons, ih]
        congr 1
        rw [mul_comm]
      · rw [if_neg hc, if_neg hc]
        rfl

theorem drainP_snd_eq_drop (bars : List Int) (x : Int) :
    ∀ (s : List Int) (best : Int),
      (drainP bars x s best).2 = s.drop (popCandidates bars x s).length := by
  intro s
  induction s with
  | nil => intro best; simp [drainP, popCandidates]
  | cons p rest ih =>
    intro best
    cases rest with
    | nil => simp [drainP, popCandidates]
    | cons q rest' =>
      rw [drainP, popCandidates]
      by_cases hc : heightExt bars x < heightExt bars p
      · rw [if_pos hc, if_pos hc, ih]
        rfl
      · rw [if_neg hc, if_neg hc]
        rfl

/-- One step of the candidate-collecting scan (spec-side mirror of `stepP`
that records candidates instead of folding them). -/
def scanCands (bars : List Int) (x : Int) (acc : List Int × List Int) :
    List Int × List Int :=
  match acc with
  | (cs, s) =>
    match s with
    | p :: _ =>
      if heightExt bars p ≤ heightExt bars x then (cs, adjustP bars x s)
      else (cs ++ popCandidates bars x s, adjustP bars x (drainP bars x s 0).2)
    | [] => acc

def candState (bars : List Int) (x : Nat) : List Int × List Int :=
  (List.range x).foldl (fun acc (k : Nat) => scanCands bars (k : Int) acc)
    ([], [-1])

/-- All candidate areas produced over the whole scan. -/
def allCandidates (bars : List Int) : List Int :=
  (candState bars (bars.length + 1)).1

theorem candState_succ (bars : List Int) (x : Nat) :
    candState bars (x + 1) = scanCands bars (x : Int) (candState bars x) := by
  unfold candState
  rw [List.range_succ, List.foldl_append]
  rfl

theorem foldl_max_shift :
    ∀ (l : List Int) (b c : Int), l.foldl max (max b c) = max b (l.foldl max c) := by
  intro l
  induction l with
  | nil => intro b c; rfl
  | cons d l ih =>
    intro b c
    rw [List.foldl_cons, List.foldl_cons, max_assoc, ih]

theorem foldl_max_of_nonneg (l : List Int) (b : Int) (hb : 0 ≤ b) :
    l.foldl max b = max b (l.foldl max 0) := by
  have h := foldl_max_shift l b 0
  rw [show max b 0 = b from by omega] at h
  exact h

theorem stateAt_fst_nonneg (bars : List Int) :
    ∀ x : Nat, 0 ≤ (stateAt bars x).1 := by
  intro x
  induction x with
  | zero => rw [stateAt_zero]
  | succ n ih =>
    rw [stateAt_succ]
    rcases hs : (stateAt bars n).2 with _ | ⟨p, t⟩
    · have hpair : stateAt bars n = ((stateAt bars n).1, ([] : List Int)) := by
        rw [← hs]
      rw [hpair]
      simpa [stepP] using ih
    · have hpair : stateAt bars n = ((stateAt bars n).1, p :: t) := by
        rw [← hs]
      rw [hpair, stepP]
      by_cases hc : heightExt bars p ≤ heightExt bars (n : Int)
      · rw [if_pos hc]
        exact ih
      · rw [if_neg hc]
        have := drainP_best_le bars (n : Int) (p :: t) 0
        simp only
        exact le_trans this (le_max_right _ _)

/-- The scan state and the candidate-collecting state coincide: the running
maximum is the fold-max of all candidates seen so far, and the stacks are
equal. -/
theorem stateAt_eq_candState (bars : List Int) :
    ∀ x : Nat, (stateAt bars x).1 = (candState bars x).1.foldl max 0 ∧
      (stateAt bars x).2 = (candState bars x).2 := by
  intro x
  induction x with
  | zero => exact ⟨rfl, rfl⟩
  | succ n ih =>
    rw [stateAt_succ, candState_succ]
    have hnn := stateAt_fst_nonneg bars n
    rcases hs : (stateAt bars n).2 with _ | ⟨p, t⟩
    · have hpairP : stateAt bars n = ((stateAt bars n).1, ([] : List Int)) := by
        rw [← hs]
      have hpairC : candState bars n = ((candState bars n).1, ([] : List Int)) := by
        rw [← hs, ih.2]
      rw [hpairP, hpairC]
      simp only [stepP, scanCands]
      constructor
      · exact ih.1
      · trivial
    · have hpairP : stateAt bars n = ((stateAt bars n).1, p :: t) := by
        rw [← hs]
      have hpairC : candState bars n = ((candState bars n).1, p :: t) := by
        rw [← hs, ih.2]
      rw [hpairP, hpairC]
      simp only [stepP, scanCands]
      by_cases hc : heightExt bars p ≤ heightExt bars (n : Int)
      · rw [if_pos hc, if_pos hc]
        constructor
        · exact ih.1
        · trivial
      · rw [if_neg hc, if_neg hc]
        refine ⟨?_, by trivial⟩
        simp only
        rw [drainP_fst_eq_fold, List.foldl_append, ← ih.1,
          foldl_max_of_nonneg _ _ hnn]

/-- The scan result is the running maximum of all candidates over the whole
scan. -/
theorem runP_eq_fold_candidates (bars : List Int) :
    runP bars = (allCandidates bars).foldl max 0 := by
  rw [runP, allCandidates]
  exact (stateAt_eq_candState bars (bars.length + 1)).1

/-!
Fueled drain loop: the number of iterations of the `while` loop is bounded
by the stack size, which witnesses its termination.
-/

def drainFuel (bars : List Int) (x : Int) :
    Nat → List Int → Int → Option (Int × List Int)
  | fuel, p :: q :: rest, best =>
    match fuel with
    | 0 => none
    | f + 1 =>
      if heightExt bars x < heightExt bars p then
        drainFuel bars x f (q :: rest)
          (max best ((x - q - 1) * heightExt bars p))
      else some (best, p :: q :: rest)
  | _, s, best => some (best, s)

theorem drainFuel_eq (bars : List Int) (x : Int) :
    ∀ (s : List Int) (best : Int) (fuel : Nat), s.length ≤ fuel →
      drainFuel bars x fuel s best = some (drainP bars x s best) := by
  intro s
  induction s with
  | nil =>
    intro best fuel _
    cases fuel <;> rfl
  | cons p rest ih =>
    intro best fuel hfuel
    cases rest with
    | nil => cases fuel <;> rfl
    | cons q rest' =>
      obtain ⟨f, rfl⟩ : ∃ f, fuel = f + 1 := by
        cases fuel with
        | zero => simp at hfuel
        | succ f => exact ⟨f, rfl⟩
      rw [drainFuel, drainP]
      by_cases hc : heightExt bars x < heightExt bars p
      · rw [if_pos hc, if_pos hc]
        refine ih _ f ?_
        simp at hfuel ⊢
        omega
      · rw [if_neg hc, if_neg hc]

/-!
32-bit semantics of the area arithmetic.  `compute_area_of_rectangle_at_last
_recorded_bar` computes `width = x_pos - second_last - 1` and
`width * height` in `i32`; `wrap32` is two's-complement wraparound at 32
bits (`2^31 = 2147483648`, `2^32 = 4294967296`).  `drainW`/`runW` are the
pure scan with exactly that candidate arithmetic wrapped.
-/

def wrap32 (z : Int) : Int := (z + 2147483648) % 4294967296 - 2147483648

theorem wrap32_eq (z : Int) (h1 : -2147483648 ≤ z) (h2 : z < 2147483648) :
    wrap32 z = z := by
  rw [wrap32]
  omega

def drainW (bars : List Int) (x : Int) : List Int → Int → Int × List Int
  | p :: q :: rest, best =>
    if heightExt bars x < heightExt bars p then
      drainW bars x (q :: rest)
        (max best (wrap32 (wrap32 (x - q - 1) * heightExt bars p)))
    else (best, p :: q :: rest)
  | s, best => (best, s)

def stepW (bars : List Int) (acc : Int × List Int) (x : Int) : Int × List Int :=
  match acc with
  | (best, s) =>
    match s with
    | p :: _ =>
      if heightExt bars p ≤ heightExt bars x then (best, adjustP bars x s)
      else
        let d := drainW bars x s 0
        (max best d.1, adjustP bars x d.2)
    | [] => acc

/-- Scan result with the candidate arithmetic wrapped at 32 bits. -/
def runW (bars : List Int) : Int :=
  ((List.range (bars.length + 1)).foldl
    (fun acc (k : Nat) => stepW bars acc (k : Int)) (0, [-1])).1

theorem drainW_eq_drainP (bars : List Int) (x : Int) :
    ∀ (s : List Int) (best : Int),
      (∀ (u v : List Int) (p q : Int), s = u ++ p :: q :: v →
        0 ≤ x - q - 1 ∧ x - q - 1 < 2147483648 ∧
          0 ≤ (x - q - 1) * heightExt bars p ∧
          (x - q - 1) * heightExt bars p < 2147483648) →
      drainW bars x s best = drainP bars x s best := by
  intro s
  induction s with
  | nil => intro best _; rfl
  | cons p rest ih =>
    intro best hc
    cases rest with
    | nil => rfl
    | cons q rest' =>
      rw [drainW, drainP]
      by_cases h : heightExt bars x < heightExt bars p
      · rw [if_pos h, if_pos h]
        have hb := hc [] rest' p q rfl
        rw [wrap32_eq (x - q - 1) (by omega) hb.2.1,
          wrap32_eq _ (by omega) hb.2.2.2]
        refine ih _ ?_
        intro u v p' q' hs
        exact hc (p :: u) v p' q' (by rw [List.cons_append, hs])
      · rw [if_neg h, if_neg h]

theorem stepW_eq_stepP (bars : List Int) (x : Int) (best : Int)
    (s : List Int) (inv : Inv bars x s) (hb : ∀ v ∈ bars, 0 ≤ v)
    (hxn : x ≤ (bars.length : Int)) (hlen : (bars.length : Int) < 2147483648)
    (hbr : brute bars < 2147483648) :
    stepW bars (best, s) x = stepP bars (best, s) x := by
  obtain ⟨p, t, rfl⟩ : ∃ p t, s = p :: t := by
    cases s with
    | nil => exact absurd rfl inv.ne
    | cons p t => exact ⟨p, t, rfl⟩
  rw [stepW, stepP]
  by_cases hc : heightExt bars p ≤ heightExt bars x
  · rw [if_pos hc, if_pos hc]
  · rw [if_neg hc, if_neg hc]
    have hd : drainW bars x (p :: t) 0 = drainP bars x (p :: t) 0 := by
      refine drainW_eq_drainP bars x (p :: t) 0 ?_
      intro u v p' q' hs
      have hsuffix : List.Sublist (p' :: q' :: v) (p :: t) := by
        rw [hs]
        exact List.sublist_append_right u _
      have hq'1 := inv.mem_lb q' (hsuffix.mem (by simp))
      have hq'2 := inv.mem_ub q' (hsuffix.mem (by simp))
      have hcand := cand_le_brute bars x (p :: t) inv hxn u v p' q' hs
      have hx0 : 0 ≤ x := by
        have := inv.mem_lb p (List.mem_cons_self p t)
        have := inv.mem_ub p (List.mem_cons_self p t)
        omega
      have hhp : 0 ≤ heightExt bars p' := heightExt_nonneg bars hb p'
      refine ⟨by omega, by omega, ?_, by omega⟩
      exact mul_nonneg (by omega) hhp
    rw [hd]

/-- With all candidate products inside `i32` range, the wrapped scan equals
the ideal scan. -/
theorem runW_eq_runP (bars : List Int) (hb : ∀ v ∈ bars, 0 ≤ v)
    (hlen : (bars.length : Int) < 2147483648)
    (hbr : brute bars < 2147483648) :
    runW bars = runP bars := by
  have hstate : ∀ x : Nat, x ≤ bars.length + 1 →
      ((List.range x).foldl (fun acc (k : Nat) => stepW bars acc (k : Int))
        (0, [-1])) = stateAt bars x := by
    intro x
    induction x with
    | zero => intro _; rfl
    | succ n ih =>
      intro hn
      rw [List.range_succ, List.foldl_append, ih (by omega), stateAt_succ]
      simp only [List.foldl_cons, List.foldl_nil]
      have hinv := (inv_stateAt bars n
        (fun k _ => heightExt_nonneg bars hb _)).1
      have hpair : stateAt bars n = ((stateAt bars n).1, (stateAt bars n).2) := rfl
      rw [hpair]
      exact stepW_eq_stepP bars (n : Int) (stateAt bars n).1 (stateAt bars n).2
        hinv hb (by omega) hlen hbr
  rw [runW, runP, hstate (bars.length + 1) (le_refl _)]

/-!
Claim theorems.
-/

/-- C1: for every histogram with non-negative bar heights,
`compute_area_of_largest_rectangle` returns the maximum over all index pairs
`(i, j)` with `0 ≤ i ≤ j < width` of `(j - i + 1) * min(height[i..=j])`
(the definition `brute`, which is `0` when the width is `0`): the optimised
stack sweep equals the brute-force reference definition. -/
theorem claim_c1_scan_equals_bruteforce (bars : List Int)
    (hb : ∀ v ∈ bars, 0 ≤ v) :
    compute_area_of_largest_rectangle bars = some (brute bars) := by
  rw [compute_eq_runP bars hb, runP_eq_brute bars hb]

theorem claim_c1_witness :
    (∀ v ∈ ([2, 1, 5, 6, 2, 3] : List Int), 0 ≤ v) ∧
      compute_area_of_largest_rectangle [2, 1, 5, 6, 2, 3] =
        some (brute [2, 1, 5, 6, 2, 3]) :=
  ⟨by decide, claim_c1_scan_equals_bruteforce [2, 1, 5, 6, 2, 3] (by decide)⟩

/-- C2: for every histogram with non-negative bar heights the returned area
is non-negative, and it is `0` exactly when the width is `0` or every bar
height is `0`. -/
theorem claim_c2_zero_characterisation (bars : List Int)
    (hb : ∀ v ∈ bars, 0 ≤ v) :
    ∃ a, compute_area_of_largest_rectangle bars = some a ∧ 0 ≤ a ∧
      (a = 0 ↔ bars.length = 0 ∨ ∀ v ∈ bars, v = 0) := by
  refine ⟨runP bars, compute_eq_runP bars hb, ?_, ?_⟩
  · rw [runP_eq_brute bars hb]
    exact brute_nonneg bars
  · rw [runP_eq_brute bars hb]
    exact brute_eq_zero_iff bars hb

theorem claim_c2_witness :
    (∀ v ∈ ([0, 2] : List Int), 0 ≤ v) ∧
      ∃ a, compute_area_of_largest_rectangle [0, 2] = some a ∧ 0 ≤ a ∧
        (a = 0 ↔ ([0, 2] : List Int).length = 0 ∨
          ∀ v ∈ ([0, 2] : List Int), v = 0) :=
  ⟨by decide, claim_c2_zero_characterisation [0, 2] (by decide)⟩

/-- C3: under the precondition that all bar heights are non-negative, every
assertion of the scan holds and the computation never panics: the faithful
embedding, in which each `assert!` (cursor bounds `[-1, width]` in
`height_at`, stack non-emptiness in the accessors, the two-element check
before a candidate area and the histogram access behind the in-range guard)
is an `Option` failure, returns `some` value. -/
theorem claim_c3_no_panic (bars : List Int) (hb : ∀ v ∈ bars, 0 ≤ v) :
    ∃ a, compute_area_of_largest_rectangle bars = some a :=
  ⟨runP bars, compute_eq_runP bars hb⟩

theorem claim_c3_witness :
    (∀ v ∈ ([1, 2, 1] : List Int), 0 ≤ v) ∧
      ∃ a, compute_area_of_largest_rectangle [1, 2, 1] = some a :=
  ⟨by decide, claim_c3_no_panic [1, 2, 1] (by decide)⟩

/-- C4: at every cursor step the stack operation is chosen by comparing the
cursor bar's bounds-extended height with the top's height: strictly higher
pushes the cursor position, exactly equal replaces the top with the cursor
position, and strictly lower first runs the drain and then records the
cursor position by the same push-or-replace rule (`chooseOp`/`applyOp` are
the spec's tagged operations). -/
theorem claim_c4_record_rule (bars : List Int) (x best p : Int)
    (t : List Int) :
    (heightExt bars p < heightExt bars x →
      stepP bars (best, p :: t) x =
        (best, applyOp (RecordOp.push x) (p :: t))) ∧
    (heightExt bars p = heightExt bars x →
      stepP bars (best, p :: t) x =
        (best, applyOp (RecordOp.replaceTop x) (p :: t))) ∧
    (heightExt bars x < heightExt bars p →
      stepP bars (best, p :: t) x =
        (max best (drainP bars x (p :: t) 0).1,
          adjustP bars x (drainP bars x (p :: t) 0).2)) ∧
    (∀ (q : Int) (u : List Int), heightExt bars q ≤ heightExt bars x →
      adjustP bars x (q :: u) = applyOp (chooseOp bars x q) (q :: u)) := by
  refine ⟨?_, ?_, ?_, ?_⟩
  · intro hc
    simp only [stepP, if_pos (le_of_lt hc), adjustP, if_pos hc, applyOp]
  · intro hc
    have h1 : heightExt bars p ≤ heightExt bars x := le_of_eq hc
    have h2 : ¬ heightExt bars p < heightExt bars x := by omega
    simp only [stepP, if_pos h1, adjustP, if_neg h2, applyOp, List.tail_cons]
  · intro hc
    simp only [stepP, if_neg (by omega : ¬ heightExt bars p ≤ heightExt bars x)]
  · intro q u hle
    rw [adjustP, chooseOp]
    by_cases hc : heightExt bars q < heightExt bars x
    · rw [if_pos hc, if_pos hc, applyOp]
    · rw [if_neg hc, if_neg hc, applyOp, List.tail_cons]

theorem claim_c4_witness :
    stepP [2, 3] (0, [0, -1]) 1 = (0, applyOp (RecordOp.push 1) [0, -1]) ∧
      stepP [2, 2] (0, [0, -1]) 1 =
        (0, applyOp (RecordOp.replaceTop 1) [0, -1]) ∧
      stepP [2, 1] (0, [0, -1]) 1 =
        (max 0 (drainP [2, 1] 1 [0, -1] 0).1,
          adjustP [2, 1] 1 (drainP [2, 1] 1 [0, -1] 0).2) ∧
      adjustP [2, 1] 1 [-1] = applyOp (chooseOp [2, 1] 1 (-1)) [-1] :=
  ⟨(claim_c4_record_rule [2, 3] 1 0 0 [-1]).1 (by decide),
    (claim_c4_record_rule [2, 2] 1 0 0 [-1]).2.1 (by decide),
    (claim_c4_record_rule [2, 1] 1 0 0 [-1]).2.2.1 (by decide),
    (claim_c4_record_rule [2, 1] 1 0 0 [-1]).2.2.2 (-1) [] (by decide)⟩

/-- C5: the drain loop pops positions exactly while the top's height
strictly exceeds the cursor bar's height, each popped position `p`
contributes `height(p) * (x - q - 1)` where `q` is the element exposed below
it (`popCandidates`), the remaining stack is the original minus the popped
prefix, and the scan result is the running maximum of all these candidates
over the whole scan. -/
theorem claim_c5_drain_candidates (bars : List Int) (x : Int) (s : List Int)
    (best : Int) :
    (drainP bars x s best).1 = (popCandidates bars x s).foldl max best ∧
    (drainP bars x s best).2 = s.drop (popCandidates bars x s).length ∧
    runP bars = (allCandidates bars).foldl max 0 :=
  ⟨drainP_fst_eq_fold bars x s best, drainP_snd_eq_drop bars x s best,
    runP_eq_fold_candidates bars⟩

/-- C6: throughout a scan over a non-negative histogram the recorded-bar
stack is never empty, it starts as the single sentinel `[-1]`, its positions
are strictly increasing from bottom to top (the list is top-first, so
strictly decreasing along the list), and adjacent recorded positions have
non-decreasing bounds-extended heights from bottom to top. -/
theorem claim_c6_stack_invariant (bars : List Int)
    (hb : ∀ v ∈ bars, 0 ≤ v) (x : Nat) (_hx : x ≤ bars.length + 1) :
    (Searcher.new bars).recorded_bars_of_increasing_height = [-1] ∧
    (stateAt bars x).2 ≠ [] ∧
    (stateAt bars x).2.Pairwise (fun above below => below < above) ∧
    (stateAt bars x).2.Chain'
      (fun above below => heightExt bars below ≤ heightExt bars above) := by
  have hinv := (inv_stateAt bars x (fun k _ => heightExt_nonneg bars hb _)).1
  refine ⟨rfl, hinv.ne, hinv.sorted, ?_⟩
  exact List.Pairwise.chain' (hinv.hsorted.imp (fun h => le_of_lt h))

theorem claim_c6_witness :
    (Searcher.new [2, 3]).recorded_bars_of_increasing_height = [-1] ∧
      (stateAt [2, 3] 3).2 ≠ [] ∧
      (stateAt [2, 3] 3).2.Pairwise (fun above below => below < above) ∧
      (stateAt [2, 3] 3).2.Chain'
        (fun above below =>
          heightExt [2, 3] below ≤ heightExt [2, 3] above) :=
  claim_c6_stack_invariant [2, 3] (by decide) 3 (by decide)

/-- C7: a histogram containing a strictly negative bar height makes the
computation abort through an assertion failure (modelled as `none`): at the
first negative bar the drain loop pops every recorded position and the
two-element assertion in the candidate-area computation fails. -/
theorem claim_c7_negative_aborts (bars : List Int)
    (hneg : ∃ v ∈ bars, v < 0) :
    compute_area_of_largest_rectangle bars = none :=
  compute_none_of_neg bars hneg

theorem claim_c7_witness :
    (∃ v ∈ ([5, -1] : List Int), v < 0) ∧
      compute_area_of_largest_rectangle [5, -1] = none :=
  ⟨by decide, claim_c7_negative_aborts [5, -1] (by decide)⟩

/-- C8: the computation terminates: the drain loop needs at most
`stack length` iterations (a fuel of the stack's length makes the fueled
loop agree with the total one), and the outer loop is a fold over the cursor
list `0, ..., width`, which has `width + 1` distinct entries, each visited
exactly once. -/
theorem claim_c8_termination (bars : List Int) (x : Int) (s : List Int)
    (best : Int) (fuel : Nat) (hfuel : s.length ≤ fuel) :
    drainFuel bars x fuel s best = some (drainP bars x s best) ∧
    runP bars = ((List.range (bars.length + 1)).foldl
      (fun acc (k : Nat) => stepP bars acc (k : Int)) (0, [-1])).1 ∧
    (List.range (bars.length + 1)).length = bars.length + 1 ∧
    (List.range (bars.length + 1)).Nodup :=
  ⟨drainFuel_eq bars x s best fuel hfuel, rfl, List.length_range _,
    List.nodup_range _⟩

theorem claim_c8_witness :
    drainFuel [2, 1] 2 3 [1, 0, -1] 0 = some (drainP [2, 1] 2 [1, 0, -1] 0) ∧
      runP [2, 1] = ((List.range (([2, 1] : List Int).length + 1)).foldl
        (fun acc (k : Nat) => stepP [2, 1] acc (k : Int)) (0, [-1])).1 ∧
      (List.range (([2, 1] : List Int).length + 1)).length =
        ([2, 1] : List Int).length + 1 ∧
      (List.range (([2, 1] : List Int).length + 1)).Nodup :=
  claim_c8_termination [2, 1] 2 [1, 0, -1] 0 3 (by decide)

/-- C9: the computation is a pure, deterministic function of the histogram:
the searcher state threaded through a completed scan still holds the
original histogram unchanged, the returned area is determined by that scan,
and calling again on the (unmutated) histogram gives the same result. -/
theorem claim_c9_purity (bars : List Int) (r : Int × Searcher)
    (h : Searcher.scan (0, Searcher.new bars)
      (List.range (bars.length + 1)) = some r) :
    r.2.histogram = bars ∧
    compute_area_of_largest_rectangle bars = some r.1 ∧
    compute_area_of_largest_rectangle r.2.histogram =
      compute_area_of_largest_rectangle bars := by
  have hb : r.2.histogram = bars :=
    scan_histogram (List.range (bars.length + 1)) (0, Searcher.new bars) r h
  refine ⟨hb, ?_, by rw [hb]⟩
  rw [compute_area_of_largest_rectangle,
    Searcher.compute_area_of_largest_rectangle]
  simp only [Option.bind_eq_bind]
  have hlen : (Searcher.new bars).histogram = bars := rfl
  rw [hlen, h]
  rfl

theorem claim_c9_witness :
    ((4 : Int), (⟨[2, 3], [2]⟩ : Searcher)).2.histogram = [2, 3] ∧
      compute_area_of_largest_rectangle [2, 3] =
        some ((4 : Int), (⟨[2, 3], [2]⟩ : Searcher)).1 ∧
      compute_area_of_largest_rectangle
          ((4 : Int), (⟨[2, 3], [2]⟩ : Searcher)).2.histogram =
        compute_area_of_largest_rectangle [2, 3] :=
  claim_c9_purity [2, 3] (4, ⟨[2, 3], [2]⟩) (by decide)

/-- C10: with non-negative heights, and a histogram whose width and exact
maximal area fit in the implementation's 32-bit signed integer type, the
scan with the candidate arithmetic (`x - q - 1` and `width * height`)
wrapped at 32 bits returns the exact mathematical area: no candidate
product wraps around. -/
theorem claim_c10_no_overflow (bars : List Int) (hb : ∀ v ∈ bars, 0 ≤ v)
    (hlen : (bars.length : Int) < 2147483648)
    (hbr : brute bars < 2147483648) :
    runW bars = brute bars ∧
      compute_area_of_largest_rectangle bars = some (runW bars) := by
  have h1 : runW bars = runP bars := runW_eq_runP bars hb hlen hbr
  have h2 : runP bars = brute bars := runP_eq_brute bars hb
  constructor
  · rw [h1, h2]
  · rw [h1]
    exact compute_eq_runP bars hb

theorem claim_c10_witness :
    runW [2, 1, 5, 6, 2, 3] = brute [2, 1, 5, 6, 2, 3] ∧
      compute_area_of_largest_rectangle [2, 1, 5, 6, 2, 3] =
        some (runW [2, 1, 5, 6, 2, 3]) :=
  claim_c10_no_overflow [2, 1, 5, 6, 2, 3] (by decide) (by decide) (by decide)

end LargestRect
